import Mathlib

/-!
The containers of nmlib: the dynamic vector (`src/nmvect.c`), the linked list, the queue
and the binary tree.

A shallow embedding of the C functions and theorems about them.

Modelling conventions.

* A `void *` is a natural number (`Ptr`), `0` being `NULL`.
* The slot block `vect->array` is a list holding one entry per allocated slot.  Every slot
  access of the C code is bounds-checked against that list; an access outside the block is
  undefined behaviour in C and makes the embedded function return `none`.
* `calloc`/`realloc` are driven by a `Heap`: which requests are granted, and which value the
  slots added by `realloc` happen to hold.
* `unsigned int` fields are natural numbers.  The unsigned arithmetic that can wrap
  (`capacity * 3`, `capacity * 2`, `capacity + modif`, `stop - start`, `size - dif`, the
  `size++` of a list) is reduced modulo `2 ^ 32`; conversions to `int` go through `i32`.
* An `int` loop counter of `src/nmvect.c` is a natural number that the loop checks against
  `INT_MAX`: a counter beyond it is a negative subscript, and incrementing it at `INT_MAX`
  overflows; both are undefined behaviour (`none`).  The loops of the indexed list functions
  take `index` steps without a represented counter; they are used on short lists only.
* The functions are embedded for a non-`NULL` vector argument; the `vect == NULL` disjunct of
  each guard is therefore not represented.
* A function that may invoke the destructor returns the arguments of its invocations, in
  order; a call through a `NULL` function pointer is undefined behaviour (`none`).
* The nodes of a linked list (`src/nmlist.c`, also the queue of `src/nmqueue.c`) and of a
  binary tree (`src/nmbintree.c`) live in a store owned by the list or tree, a node pointer
  being an address in that store.
-/

namespace NmLib

/-- Value of a `void *`: an address, `0` standing for `NULL`. -/
abbrev Ptr := Nat

/-- Behaviour of the C allocator as seen by the vector. -/
structure Heap where
  /-- whether a request for a fixed-size object (a vector or list header, a list node, an
  `int` cell) is granted -/
  header : Bool
  /-- whether a request for a block of `n` slots is granted -/
  grants : Nat → Bool
  /-- content of the slots that `realloc` adds when it enlarges a block -/
  junk : Ptr

/-- Reduction of an integer to an `unsigned int` (32 bits). -/
def u32 (x : Int) : Nat := (x % 4294967296).toNat

/-- Conversion of an `unsigned int` value to `int` (32 bits, two's complement). -/
def i32 (n : Nat) : Int :=
  if n % 4294967296 < 2147483648 then ((n % 4294967296 : Nat) : Int)
  else ((n % 4294967296 : Nat) : Int) - 4294967296

/-- Model of `calloc(n, sizeof(nmvect_element))`: a zero-filled block of `n` slots, or `none`. -/
def calloc (h : Heap) (n : Nat) : Option (List Ptr) :=
  if h.grants n then some (List.replicate n 0) else none

/-- Model of `realloc(arr, n * sizeof(nmvect_element))`: the first `min n (old length)` slots are
kept, added slots hold `h.junk`; `none` when the request is refused. -/
def realloc (h : Heap) (arr : List Ptr) (n : Nat) : Option (List Ptr) :=
  if h.grants n then some (arr.take n ++ List.replicate (n - arr.length) h.junk) else none

/-- Bounds-checked read of slot `i`. -/
def slot_read (arr : List Ptr) (i : Nat) : Option Ptr := arr[i]?

/-- Bounds-checked write of slot `i`. -/
def slot_write (arr : List Ptr) (i : Nat) (p : Ptr) : Option (List Ptr) :=
  if i < arr.length then some (arr.set i p) else none

/-- The vector header `struct nmvect_s`.  The destructor is kept by name (only its identity
and its invocations matter), the comparator as the function it computes; `none` is `NULL`. -/
structure nmvect where
  destructor : Option Nat
  cmp : Option (Ptr → Ptr → Int)
  capacity : Nat
  size : Nat
  array : List Ptr

/-- The logically present elements: slots `0 .. size-1`. -/
def nmvect.elems (v : nmvect) : List Ptr := v.array.take v.size

/-- Embedding of `nmvect_alloc`: `none` is the `NULL` result. -/
def nmvect_alloc (h : Heap) (icap : Nat) (destructor : Option Nat)
    (cmp : Option (Ptr → Ptr → Int)) : Option nmvect :=
  if h.header then
    match calloc h icap with
    | none => none
    | some arr =>
      some { destructor := destructor, cmp := cmp, capacity := icap, size := 0, array := arr }
  else none

/-- Embedding of `nmvect_expand`: the return code and the vector afterwards. -/
def nmvect_expand (h : Heap) (vect : nmvect) : Int × nmvect :=
  let tmp_cap := vect.capacity * 3 % 4294967296 / 2 + 1
  match realloc h vect.array tmp_cap with
  | some tmp_array => (0, { vect with array := tmp_array, capacity := tmp_cap })
  | none => (-1, vect)

/-- Embedding of `nmvect_contract`: the return code and the vector afterwards. -/
def nmvect_contract (h : Heap) (vect : nmvect) : Int × nmvect :=
  let tmp_cap := vect.capacity * 2 % 4294967296 / 3 + 1
  match realloc h vect.array tmp_cap with
  | some tmp_array => (0, { vect with array := tmp_array, capacity := tmp_cap })
  | none => (-1, vect)

/-- Embedding of `nmvect_modcap`: `vect->capacity + modif` is computed in `unsigned int`. -/
def nmvect_modcap (h : Heap) (vect : nmvect) (modif : Int) : Int × nmvect :=
  if u32 ((vect.capacity : Int) + modif) < 1 then (-1, vect)
  else if modif = 0 then (0, vect)
  else
    let tmp_cap := u32 ((vect.capacity : Int) + modif)
    match realloc h vect.array tmp_cap with
    | some tmp_array => (0, { vect with array := tmp_array, capacity := tmp_cap })
    | none => (-1, vect)

/-- Embedding of `nmvect_append`: `none` is an out-of-block slot access. -/
def nmvect_append (h : Heap) (vect : nmvect) (data : Ptr) : Option (Int × nmvect) :=
  let r := if vect.size = vect.capacity then nmvect_expand h vect else (0, vect)
  if r.1 ≠ 0 then some (-1, r.2)
  else
    match slot_write r.2.array r.2.size data with
    | none => none
    | some a => some (0, { r.2 with array := a, size := r.2.size + 1 })

/-- The loop of `nmvect_insert`: `n` iterations from counter `i`, carrying `tmp`.  The
counter is an `int`: an iteration entered with `i ≥ INT_MAX` has a negative subscript or
overflows `i++`, which is undefined behaviour (`none`). -/
def nmvect_insert_loop : Nat → Nat → Ptr → List Ptr → Option (List Ptr)
  | 0, _, _, arr => some arr
  | n + 1, i, tmp, arr =>
    if 2147483647 ≤ i then none
    else
      match slot_read arr i with
      | none => none
      | some aux => nmvect_insert_loop n (i + 1) aux (arr.set i tmp)

/-- Embedding of `nmvect_insert`: `none` is an out-of-block slot access. -/
def nmvect_insert (h : Heap) (vect : nmvect) (index : Nat) (data : Ptr) :
    Option (Int × nmvect) :=
  if index > vect.size then some (-1, vect)
  else if index = vect.size then
    match nmvect_append h vect data with
    | none => none
    | some r => some (0, { r.2 with size := r.2.size + 1 })
  else
    let v1 := if vect.size = vect.capacity then (nmvect_expand h vect).2 else vect
    let ilim := v1.size + 1
    match nmvect_insert_loop (ilim - index) index data v1.array with
    | none => none
    | some a => some (0, { v1 with array := a, size := v1.size + 1 })

/-- Embedding of `nmvect_get`: `none` is an out-of-block slot access, `some 0` the `NULL` result. -/
def nmvect_get (vect : nmvect) (index : Nat) : Option Ptr :=
  if index ≥ vect.size then some 0 else slot_read vect.array index

/-- The loop of `nmvect_remove`: `n` iterations of `array[i] = array[i+1]` from counter `i`.
The counter is an `int`: an iteration entered with `i ≥ INT_MAX` either has a negative
subscript (the counter started from an index `≥ 2 ^ 31`) or overflows `i + 1`, which is
undefined behaviour (`none`). -/
def nmvect_remove_loop : Nat → Nat → List Ptr → Option (List Ptr)
  | 0, _, arr => some arr
  | n + 1, i, arr =>
    if 2147483647 ≤ i then none
    else
      match slot_read arr (i + 1) with
      | none => none
      | some x =>
        match slot_write arr i x with
        | none => none
        | some a => nmvect_remove_loop n (i + 1) a

/-- Embedding of `nmvect_remove`: the returned pointer (`0` is `NULL`), the vector afterwards and the
arguments of the destructor invocations made during the call (the body makes none); `none` is
an out-of-block slot access. -/
def nmvect_remove (h : Heap) (vect : nmvect) (index : Nat) :
    Option (Ptr × nmvect × List Ptr) :=
  if index ≥ vect.size then some (0, vect, [])
  else
    let v1 := if vect.size = vect.capacity * 2 % 4294967296 / 3 + 1
      then (nmvect_contract h vect).2 else vect
    match slot_read v1.array index with
    | none => none
    | some data =>
      let size := v1.size - 1
      match nmvect_remove_loop (size - index) index v1.array with
      | none => none
      | some a => some (data, { v1 with array := a, size := size }, [])

/-- The loop `for (i = from; i < to; i++) nmvect_append(dst, vect->array[i])` that
`nmvect_remove_range` and `nmvect_insert_range` use to copy slots into a fresh vector: `n`
iterations from counter `i`.  `none` is an out-of-block access, `some none` a failed append.
The counter is an `int`: an iteration entered with `i > INT_MAX` has a negative subscript,
and passing on from the iteration at `INT_MAX` overflows `i++`; both are undefined behaviour
(`none`). -/
def nmvect_copy_loop (h : Heap) : Nat → Nat → List Ptr → nmvect → Option (Option nmvect)
  | 0, _, _, dst => some (some dst)
  | n + 1, i, arr, dst =>
    if 2147483648 ≤ i then none
    else
      match slot_read arr i with
      | none => none
      | some x =>
        match nmvect_append h dst x with
        | none => none
        | some r =>
          if r.1 ≠ 0 then some none
          else if 2147483647 ≤ i then none
          else nmvect_copy_loop h n (i + 1) arr r.2

/-- The compaction loop of `nmvect_remove_range`: `n` iterations of
`array[i] = array[i + dif]` from counter `i`, with `dif` an `int`.  The counter is an `int`
too: an iteration entered with `i ≥ INT_MAX` has a negative subscript or overflows `i++`, and
a sum `i + dif` outside `0 .. INT_MAX` is a negative subscript or an overflow; each is
undefined behaviour (`none`). -/
def nmvect_remove_range_shift : Nat → Nat → Int → List Ptr → Option (List Ptr)
  | 0, _, _, arr => some arr
  | n + 1, i, dif, arr =>
    if 2147483647 ≤ i ∨ (i : Int) + dif < 0 ∨ 2147483647 < (i : Int) + dif then none
    else
      match slot_read arr ((i : Int) + dif).toNat with
      | none => none
      | some x =>
        match slot_write arr i x with
        | none => none
        | some a => nmvect_remove_range_shift n (i + 1) dif a

/-- Embedding of `nmvect_remove_range`: the returned vector (`none` is `NULL`) and `vect` afterwards; the
outer `none` is an out-of-block slot access.  `stop - start` is an `unsigned int`. -/
def nmvect_remove_range (h : Heap) (vect : nmvect) (start stop : Nat) :
    Option (Option nmvect × nmvect) :=
  if start ≥ vect.size ∨ stop > vect.size ∨ u32 ((stop : Int) - start) ≤ 0 then
    some (none, vect)
  else
    match nmvect_alloc h (u32 ((stop : Int) - start)) vect.destructor vect.cmp with
    | none => some (none, vect)
    | some rvect0 =>
      match nmvect_copy_loop h (stop - start) start vect.array rvect0 with
      | none => none
      | some none => some (none, vect)
      | some (some rvect) =>
        let dif := i32 (u32 ((stop : Int) - start))
        let ilim := i32 (u32 ((vect.size : Int) - dif))
        match nmvect_remove_range_shift (ilim - i32 start).toNat start dif vect.array with
        | none => none
        | some a =>
          let v1 := (nmvect_modcap h { vect with array := a } (-dif)).2
          some (some rvect, { v1 with size := u32 ((v1.size : Int) - dif) })

/-- The second loop of `nmvect_insert_range`: `n` iterations from counter `i`, each growing
`size` when `i + index >= size` and storing `addvect->array[i]` at `i + index`.  An
iteration entered with the `int` counter at `INT_MAX` overflows `i++`, which is undefined
behaviour (`none`). -/
def nmvect_insert_range_write : Nat → Nat → Nat → List Ptr → nmvect → Option nmvect
  | 0, _, _, _, vect => some vect
  | n + 1, i, index, src, vect =>
    if 2147483647 ≤ i then none
    else
      let v1 := if i + index ≥ vect.size then { vect with size := vect.size + 1 } else vect
      match slot_read src i with
      | none => none
      | some x =>
        match slot_write v1.array (i + index) x with
        | none => none
        | some a => nmvect_insert_range_write n (i + 1) index src { v1 with array := a }

/-- The third loop of `nmvect_insert_range`: `n` iterations from counter `i` of
`nmvect_append(vect, nmvect_get(moved_data, i))`, the return code being ignored.  An
iteration entered with the `int` counter at `INT_MAX` overflows `i++`, which is undefined
behaviour (`none`). -/
def nmvect_insert_range_restore (h : Heap) : Nat → Nat → nmvect → nmvect → Option nmvect
  | 0, _, _, vect => some vect
  | n + 1, i, moved_data, vect =>
    if 2147483647 ≤ i then none
    else
      match nmvect_get moved_data i with
      | none => none
      | some x =>
        match nmvect_append h vect x with
        | none => none
        | some r => nmvect_insert_range_restore h n (i + 1) moved_data r.2

/-- Embedding of `nmvect_insert_range`: the return code and `vect` afterwards (`addvect` is only read);
`none` is an out-of-block slot access. -/
def nmvect_insert_range (h : Heap) (vect : nmvect) (index : Nat) (addvect : nmvect) :
    Option (Int × nmvect) :=
  if index > vect.size then some (-1, vect)
  else
    let m := nmvect_modcap h vect (i32 (vect.capacity + addvect.size))
    if m.1 ≠ 0 then some (-1, m.2)
    else
      match nmvect_alloc h addvect.size m.2.destructor none with
      | none => some (-1, m.2)
      | some moved0 =>
        match nmvect_copy_loop h (m.2.size - index) index m.2.array moved0 with
        | none => none
        | some none => some (-1, m.2)
        | some (some moved_data) =>
          match nmvect_insert_range_write addvect.size 0 index addvect.array m.2 with
          | none => none
          | some v2 =>
            match nmvect_insert_range_restore h moved_data.size 0 moved_data v2 with
            | none => none
            | some v3 => some (0, v3)

/-- An allocator that grants every request. -/
def Heap.generous (junk : Ptr) : Heap := { header := true, grants := fun _ => true, junk := junk }

/-- One call of the single-element interface, as replayed in the order-preservation
property. -/
inductive Call where
  | insert (index : Nat) (data : Ptr)
  | append (data : Ptr)
  | remove (index : Nat)

/-- The vector after one call (`none` is an out-of-block slot access); the return value of
the call is dropped. -/
def Call.run (h : Heap) (v : nmvect) : Call → Option nmvect
  | Call.insert index data => (nmvect_insert h v index data).map (fun r => r.2)
  | Call.append data => (nmvect_append h v data).map (fun r => r.2)
  | Call.remove index => (nmvect_remove h v index).map (fun r => r.2.1)

/-- The vector after a sequence of calls. -/
def replay (h : Heap) : List Call → nmvect → Option nmvect
  | [], v => some v
  | c :: cs, v =>
    match c.run h v with
    | none => none
    | some v1 => replay h cs v1

/-- Reference semantics of one call on a plain list, following the specification's words:
insert-at-position (valid for `index ≤ length`), append-at-end, erase-at-position (valid for
`index < length`); a call outside its valid range changes nothing. -/
def Call.reference (l : List Ptr) : Call → List Ptr
  | Call.insert index data => if index ≤ l.length then l.take index ++ data :: l.drop index else l
  | Call.append data => l ++ [data]
  | Call.remove index => l.eraseIdx index

/-- The reference list after a sequence of calls. -/
def replay_reference : List Call → List Ptr → List Ptr
  | [], l => l
  | c :: cs, l => replay_reference cs (c.reference l)

/-- Observable content of a vector: `nmvect_get` at `0 .. size-1`. -/
def nmvect.observe (v : nmvect) : List (Option Ptr) :=
  (List.range v.size).map (nmvect_get v)

/-- Embedding of `nmvect_set`: `none` is an out-of-block slot access. -/
def nmvect_set (vect : nmvect) (index : Nat) (data : Ptr) : Option (Int × nmvect) :=
  if index ≥ vect.size then some (-1, vect)
  else
    match slot_write vect.array index data with
    | none => none
    | some a => some (0, { vect with array := a })

/-- The loop of `nmvect_contains`: `n` iterations from counter `i`; the value is the one the
function returns (from inside the loop on a match, after it otherwise).  Passing on from an
iteration entered with the `int` counter at `INT_MAX` overflows `i++`, which is undefined
behaviour (`none`). -/
def nmvect_contains_loop (cmp : Ptr → Ptr → Int) : Nat → Nat → List Ptr → Ptr → Option Int
  | 0, _, _, _ => some (-1)
  | n + 1, i, arr, data =>
    match slot_read arr i with
    | none => none
    | some x =>
      if cmp x data = 0 then some 0
      else if 2147483647 ≤ i then none
      else nmvect_contains_loop cmp n (i + 1) arr data

/-- Embedding of `nmvect_contains`: the returned `int`; `none` is an out-of-block slot
access. -/
def nmvect_contains (vect : nmvect) (data : Ptr) : Option Int :=
  match vect.cmp with
  | none => some (-1)
  | some cmp => nmvect_contains_loop cmp vect.size 0 vect.array data

/-- The loop of `nmvect_free`: `n` iterations from counter `i`; the value lists the arguments
of the destructor invocations, in order.  The counter is an `int`: an iteration entered with
`i ≥ INT_MAX` overflows `i++` (or has a negative subscript), which is undefined behaviour
(`none`). -/
def nmvect_free_loop : Nat → Nat → List Ptr → Option (List Ptr)
  | 0, _, _ => some []
  | n + 1, i, arr =>
    if 2147483647 ≤ i then none
    else
      match slot_read arr i with
      | none => none
      | some x =>
        match nmvect_free_loop n (i + 1) arr with
        | none => none
        | some calls => some (if x ≠ 0 then x :: calls else calls)

/-- Embedding of `nmvect_free`: the return code, the vector afterwards (`none` once it has
been released) and the arguments of the destructor invocations, in order. -/
def nmvect_free (vect : nmvect) : Option (Int × Option nmvect × List Ptr) :=
  match vect.destructor with
  | none => some (-1, some vect, [])
  | some _ =>
    match nmvect_free_loop vect.size 0 vect.array with
    | none => none
    | some calls => some (0, none, calls)

/-- Embedding of `nmvect_purge`: the return code, the vector afterwards and the arguments of
the destructor invocations.  The body calls `vect->destructor(data)` with `data` still
`NULL`; `none` is that call made through a `NULL` destructor. -/
def nmvect_purge (vect : nmvect) (index : Nat) : Option (Int × nmvect × List Ptr) :=
  if index ≥ vect.size then some (-1, vect, [])
  else
    match vect.destructor with
    | none => none
    | some _ => some (0, vect, [0])

/-- Embedding of `nmvect_purge_range`: the return code, the vector afterwards and the
arguments of the destructor invocations (made by `nmvect_free` on the removed range; on a
`NULL` result of `nmvect_remove_range` that call returns `-1` at once). -/
def nmvect_purge_range (h : Heap) (vect : nmvect) (start stop : Nat) :
    Option (Int × nmvect × List Ptr) :=
  if start ≥ vect.size ∨ stop > vect.size ∨ u32 ((stop : Int) - start) ≤ 0 then
    some (-1, vect, [])
  else
    match nmvect_remove_range h vect start stop with
    | none => none
    | some (none, v1) => some (0, v1, [])
    | some (some rvect, v1) =>
      match nmvect_free rvect with
      | none => none
      | some r => some (0, v1, r.2.2)

/-! The linked list of `src/nmlist.c` (the queue of `src/nmqueue.c` is this list).  A node pointer
is the address of the node in the store of the list (`none` is `NULL`); a released node
leaves `none` at its address. -/

/-- A list node `struct nmlist_element_s`. -/
structure nmlist_element where
  data : Ptr
  next : Option Nat
  deriving DecidableEq

/-- The list header `struct nmlist_s` together with the nodes allocated for it. -/
structure nmlist where
  destructor : Option Nat
  cmp : Option (Ptr → Ptr → Int)
  size : Nat
  head : Option Nat
  tail : Option Nat
  nodes : List (Option nmlist_element)

/-- Dereference of a node pointer: `none` when the address holds no live node. -/
def node_read (nodes : List (Option nmlist_element)) (a : Nat) : Option nmlist_element :=
  match nodes[a]? with
  | some (some e) => some e
  | _ => none

/-- Name under which the destructor `nmaux_primitive_destructor` (`free`) is recorded. -/
def nmaux_primitive_destructor : Nat := 1

/-- Embedding of `nmlist_alloc`: `none` is the `NULL` result. -/
def nmlist_alloc (h : Heap) (destructor : Option Nat) : Option nmlist :=
  if h.header then
    some { destructor := destructor, cmp := none, size := 0, head := none, tail := none,
           nodes := [] }
  else none

/-- Embedding of `nmlist_tail` on a non-`NULL` list. -/
def nmlist_tail (list : nmlist) : Option Nat := list.tail

/-- Embedding of `nmlist_insert_next`: the new node takes the next free address; `none` is
the dereference of a pointer that holds no live node.  `list->size` is an `unsigned int`, so
`list->size++` is reduced modulo `2 ^ 32`. -/
def nmlist_insert_next (h : Heap) (list : nmlist) (element : Option Nat) (data : Ptr) :
    Option (Int × nmlist) :=
  if h.header then
    let new_e := list.nodes.length
    match element with
    | none =>
      some (0, { list with
        tail := if list.size = 0 then some new_e else list.tail,
        head := some new_e,
        nodes := list.nodes ++ [some { data := data, next := list.head }],
        size := (list.size + 1) % 4294967296 })
    | some e =>
      match node_read list.nodes e with
      | none => none
      | some node =>
        some (0, { list with
          tail := if node.next = none then some new_e else list.tail,
          nodes := list.nodes.set e (some { node with next := some new_e })
            ++ [some { data := data, next := node.next }],
          size := (list.size + 1) % 4294967296 })
  else some (-1, list)

/-- Embedding of `nmlist_remove_next`: the returned data (`0` is `NULL`) and the list
afterwards; `none` is the dereference of a pointer that holds no live node. -/
def nmlist_remove_next (list : nmlist) (element : Option Nat) : Option (Ptr × nmlist) :=
  if list.size = 0 then some (0, list)
  else
    match element with
    | none =>
      match list.head with
      | none => none
      | some old_e =>
        match node_read list.nodes old_e with
        | none => none
        | some old =>
          some (old.data, { list with
            head := old.next,
            tail := if list.size = 1 then none else list.tail,
            nodes := list.nodes.set old_e none,
            size := list.size - 1 })
    | some e =>
      match node_read list.nodes e with
      | none => none
      | some node =>
        match node.next with
        | none => some (0, list)
        | some old_e =>
          match node_read list.nodes old_e with
          | none => none
          | some old =>
            some (old.data, { list with
              tail := if old.next = none then some e else list.tail,
              nodes := (list.nodes.set e (some { node with next := old.next })).set old_e none,
              size := list.size - 1 })

/-- The loop of `nmlist_free`: at most `fuel` rounds of `while (list->size > 0)`, each
removing the head; the value lists the arguments of the destructor invocations. -/
def nmlist_free_loop : Nat → nmlist → Option (List Ptr)
  | 0, _ => some []
  | fuel + 1, list =>
    if list.size = 0 then some []
    else
      match nmlist_remove_next list none with
      | none => none
      | some r =>
        match nmlist_free_loop fuel r.2 with
        | none => none
        | some calls => some (if r.1 ≠ 0 then r.1 :: calls else calls)

/-- Embedding of `nmlist_free`: the return code, the list afterwards (`none` once released)
and the arguments of the destructor invocations.  Every round of the loop lowers `size` by
one, so `size` rounds of fuel run it to its end. -/
def nmlist_free (list : nmlist) : Option (Int × Option nmlist × List Ptr) :=
  match list.destructor with
  | none => some (-1, some list, [])
  | some _ =>
    match nmlist_free_loop list.size list with
    | none => none
    | some calls => some (0, none, calls)

/-- The loop of `nmvect_occurence`: `n` iterations from counter `i`.  `cells` are the `int`
objects obtained from `malloc` so far, the one at position `k` having address `k + 1`.  The
value is the list to return (`none` is `NULL`) with the cells; the outer `none` is undefined
behaviour: an out-of-block slot access, a call through a `NULL` comparator, or the store
through the unchecked `NULL` result of `malloc`.  The counter is an `int`: passing on from
the iteration at `INT_MAX` overflows `i++`, which is undefined behaviour as well. -/
def nmvect_occurence_loop (h : Heap) (cmp : Option (Ptr → Ptr → Int)) :
    Nat → Nat → List Ptr → Ptr → Option nmlist → List Nat → Option (Option (nmlist × List Nat))
  | 0, _, _, _, rlist, cells =>
    match rlist with
    | none => some none
    | some l => some (some (l, cells))
  | n + 1, i, arr, data, rlist, cells =>
    match slot_read arr i with
    | none => none
    | some x =>
      match cmp with
      | none => none
      | some c =>
        if c x data = 0 then
          if h.header then
            let j := cells.length + 1
            match rlist with
            | none => some none
            | some l =>
              match nmlist_insert_next h l (nmlist_tail l) j with
              | none => none
              | some r =>
                if r.1 ≠ 0 then
                  match nmlist_free r.2 with
                  | none => none
                  | some _ => some none
                else if 2147483647 ≤ i then none
                else nmvect_occurence_loop h cmp n (i + 1) arr data (some r.2) (cells ++ [i])
          else none
        else if 2147483647 ≤ i then none
        else nmvect_occurence_loop h cmp n (i + 1) arr data rlist cells

/-- Embedding of `nmvect_occurence`: the returned list (`none` is `NULL`) and the `int`
cells its items point to. -/
def nmvect_occurence (h : Heap) (vect : nmvect) (data : Ptr) :
    Option (Option (nmlist × List Nat)) :=
  nmvect_occurence_loop h vect.cmp vect.size 0 vect.array data
    (nmlist_alloc h (some nmaux_primitive_destructor)) []

/-- The data pointers met when following `next` from node pointer `p`, for at most `fuel`
nodes; `none` on a dangling pointer or when the fuel runs out before `NULL`. -/
def nmlist_walk (nodes : List (Option nmlist_element)) : Nat → Option Nat → Option (List Ptr)
  | _, none => some []
  | 0, some _ => none
  | fuel + 1, some a =>
    match node_read nodes a with
    | none => none
    | some e =>
      match nmlist_walk nodes fuel e.next with
      | none => none
      | some rest => some (e.data :: rest)

/-- The items of a list read head to tail (one unit of fuel for every node ever
allocated). -/
def nmlist.items (list : nmlist) : Option (List Ptr) :=
  nmlist_walk list.nodes list.nodes.length list.head

/-- The `int` values behind a sequence of pointers into `cells`. -/
def read_cells (cells : List Nat) : List Ptr → Option (List Nat)
  | [] => some []
  | p :: ps =>
    match (if p = 0 then none else cells[p - 1]?) with
    | none => none
    | some k =>
      match read_cells cells ps with
      | none => none
      | some ks => some (k :: ks)

/-- The indices stored in the result of `nmvect_occurence`, read head to tail. -/
def occurence_indices (result : nmlist × List Nat) : Option (List Nat) :=
  match result.1.items with
  | none => none
  | some ps => read_cells result.2 ps

/-- The comparator of the specification's scenarios: numeric equality of the two values
(`0` when equal, `1` otherwise). -/
def numeric_equality : Ptr → Ptr → Int := fun e1 e2 => if e1 = e2 then 0 else 1

/-- The node store of a list built by `m` insertions after the tail, the `k`-th inserted
item being the pointer `k + 1`: node `k` holds `k + 1` and points to node `k + 1`, the last
node to `NULL`. -/
def chain_nodes (m : Nat) : List (Option nmlist_element) :=
  (List.range m).map
    (fun k => some { data := k + 1, next := if k + 1 < m then some (k + 1) else none })

/-- The list built by `m` insertions after the tail from `nmlist_alloc` with the primitive
destructor, the `k`-th inserted item being the pointer `k + 1` (`size` counts modulo
`2 ^ 32`). -/
def chain_list (m : Nat) : nmlist :=
  { destructor := some nmaux_primitive_destructor, cmp := none, size := m % 4294967296,
    head := if m = 0 then none else some 0,
    tail := if m = 0 then none else some (m - 1),
    nodes := chain_nodes m }

/-- Embedding of `nmvect_append_range`: the `index` argument is not used by the body. -/
def nmvect_append_range (h : Heap) (vect : nmvect) (_index : Nat) (appvect : nmvect) :
    Option (Int × nmvect) :=
  nmvect_insert_range h vect vect.size appvect

/-- The loop `for (i = 0, tmp = list->head; i < n; i++) tmp = tmp->next` of the indexed list
functions: `n` steps from `tmp`; `none` is a step taken from `NULL` or from a dead node. -/
def nmlist_advance (nodes : List (Option nmlist_element)) :
    Nat → Option Nat → Option (Option Nat)
  | 0, tmp => some tmp
  | n + 1, tmp =>
    match tmp with
    | none => none
    | some a =>
      match node_read nodes a with
      | none => none
      | some e => nmlist_advance nodes n e.next

/-- Embedding of `nmlist_index`: the node pointer found (`some none` is `NULL`). -/
def nmlist_index (list : nmlist) (index : Nat) : Option (Option Nat) :=
  if index > list.size then some none else nmlist_advance list.nodes index list.head

/-- Embedding of `nmlist_head` on a non-`NULL` list. -/
def nmlist_head (list : nmlist) : Option Nat := list.head

/-- Embedding of `nmlist_get_data`, the node being looked up in the store of `list`. -/
def nmlist_get_data (list : nmlist) (element : Option Nat) : Option Ptr :=
  match element with
  | none => some 0
  | some a =>
    match node_read list.nodes a with
    | none => none
    | some e => some e.data

/-- Embedding of `nmlist_get_index`. -/
def nmlist_get_index (list : nmlist) (index : Nat) : Option Ptr :=
  match nmlist_index list index with
  | none => none
  | some element => nmlist_get_data list element

/-- Embedding of `nmlist_insert_index`: the return code of `nmlist_insert_next` is dropped. -/
def nmlist_insert_index (h : Heap) (list : nmlist) (index : Nat) (data : Ptr) :
    Option (Int × nmlist) :=
  if index > list.size then some (-1, list)
  else if index = 0 then
    match nmlist_insert_next h list none data with
    | none => none
    | some r => some (0, r.2)
  else
    match nmlist_advance list.nodes index list.head with
    | none => none
    | some tmp =>
      match nmlist_insert_next h list tmp data with
      | none => none
      | some r => some (0, r.2)

/-- Embedding of `nmlist_remove_index`: the returned data (`0` is `NULL`) and the list. -/
def nmlist_remove_index (list : nmlist) (index : Nat) : Option (Ptr × nmlist) :=
  if index > list.size then some (0, list)
  else if index = 0 then nmlist_remove_next list none
  else
    match nmlist_advance list.nodes (index - 1) list.head with
    | none => none
    | some tmp => nmlist_remove_next list tmp

/-- Embedding of `nmlist_purge_index`: the return code, the list afterwards and the
arguments of the destructor invocations (the body makes none: on non-`NULL` data it stores
`NULL` into `list->destructor`). -/
def nmlist_purge_index (list : nmlist) (index : Nat) : Option (Int × nmlist × List Ptr) :=
  if index > list.size ∨ list.destructor = none then some (-1, list, [])
  else
    match nmlist_remove_index list index with
    | none => none
    | some r => some (0, if r.1 ≠ 0 then { r.2 with destructor := none } else r.2, [])

/-- Embedding of `nmqueue_enqueue` (`src/nmqueue.c`). -/
def nmqueue_enqueue (h : Heap) (queue : nmlist) (data : Ptr) : Option (Int × nmlist) :=
  nmlist_insert_next h queue (nmlist_tail queue) data

/-- Embedding of `nmqueue_dequeue`. -/
def nmqueue_dequeue (queue : nmlist) : Option (Ptr × nmlist) :=
  nmlist_remove_next queue none

/-- Embedding of `nmqueue_peek`. -/
def nmqueue_peek (queue : nmlist) : Option Ptr :=
  nmlist_get_data queue (nmlist_head queue)

/-- Embedding of `nmqueue_size` (`nmlist_size` on a non-`NULL` queue). -/
def nmqueue_size (queue : nmlist) : Nat := queue.size

/-- Enqueue the data of a list, first to last: the return codes and the queue afterwards. -/
def enqueue_all (h : Heap) : List Ptr → nmlist → Option (List Int × nmlist)
  | [], queue => some ([], queue)
  | x :: xs, queue =>
    match nmqueue_enqueue h queue x with
    | none => none
    | some r =>
      match enqueue_all h xs r.2 with
      | none => none
      | some s => some (r.1 :: s.1, s.2)

/-- Run `nmqueue_peek` then `nmqueue_dequeue`, `n` times: the pairs (peeked, dequeued) in
order and the queue afterwards. -/
def dequeue_times : Nat → nmlist → Option (List (Ptr × Ptr) × nmlist)
  | 0, queue => some ([], queue)
  | n + 1, queue =>
    match nmqueue_peek queue with
    | none => none
    | some p =>
      match nmqueue_dequeue queue with
      | none => none
      | some r =>
        match dequeue_times n r.2 with
        | none => none
        | some s => some ((p, r.1) :: s.1, s.2)

/-- The node store of a queue on which the data `xs` were enqueued, in order, and the first
`j` of them dequeued: the released nodes leave `none`, node `k` holds `xs[k]` and points to
node `k + 1`, the last node to `NULL`. -/
def queue_nodes (xs : List Ptr) (j : Nat) : List (Option nmlist_element) :=
  (List.range xs.length).map
    (fun k => if k < j then none
      else some { data := xs.getD k 0,
                  next := if k + 1 < xs.length then some (k + 1) else none })

/-- The queue on which the data `xs` were enqueued and the first `j` of them dequeued (`size`
counts modulo `2 ^ 32`). -/
def queue_state (d : Option Nat) (xs : List Ptr) (j : Nat) : nmlist :=
  { destructor := d, cmp := none, size := (xs.length - j) % 4294967296,
    head := if j < xs.length then some j else none,
    tail := if j < xs.length then some (xs.length - 1) else none,
    nodes := queue_nodes xs j }

/-! The binary tree of `src/nmbintree.c`.  As for the list, a node pointer is the address of
the node in the store of the tree. -/

/-- A tree node `struct nmbintree_node_s`. -/
structure nmbintree_node where
  data : Ptr
  right : Option Nat
  left : Option Nat
  deriving DecidableEq

/-- The tree header `struct nmbintree_s` together with the nodes allocated for it. -/
structure nmbintree where
  size : Nat
  cmp : Option (Ptr → Ptr → Int)
  destructor : Option Nat
  root : Option Nat
  nodes : List (Option nmbintree_node)

/-- Dereference of a tree node pointer: `none` when the address holds no live node. -/
def treenode_read (nodes : List (Option nmbintree_node)) (a : Nat) : Option nmbintree_node :=
  match nodes[a]? with
  | some (some e) => some e
  | _ => none

/-- Embedding of `nmbintree_alloc`: `none` is the `NULL` result. -/
def nmbintree_alloc (h : Heap) (destructor : Option Nat) (cmp : Option (Ptr → Ptr → Int)) :
    Option nmbintree :=
  if h.header then
    some { size := 0, cmp := cmp, destructor := destructor, root := none, nodes := [] }
  else none

/-- Embedding of `nmbintree_add_left` on a non-`NULL` tree: the return code and the tree
afterwards; `none` is the dereference of a pointer that holds no live node. -/
def nmbintree_add_left (h : Heap) (tree : nmbintree) (treenode : Option Nat) (data : Ptr) :
    Option (Int × nmbintree) :=
  match treenode with
  | none =>
    if tree.size = 0 then some (-1, tree)
    else if h.header then
      some (0, { tree with
        root := some tree.nodes.length,
        nodes := tree.nodes ++ [some { data := data, right := none, left := none }],
        size := tree.size + 1 })
    else some (-1, tree)
  | some t =>
    match treenode_read tree.nodes t with
    | none => none
    | some node =>
      if node.right ≠ none then some (-1, tree)
      else if h.header then
        some (0, { tree with
          nodes := tree.nodes.set t (some { node with left := some tree.nodes.length })
            ++ [some { data := data, right := none, left := none }],
          size := tree.size + 1 })
      else some (-1, tree)

/-- Embedding of `nmbintree_add_right` on a non-`NULL` tree. -/
def nmbintree_add_right (h : Heap) (tree : nmbintree) (treenode : Option Nat) (data : Ptr) :
    Option (Int × nmbintree) :=
  match treenode with
  | none =>
    if tree.size = 0 then some (-1, tree)
    else if h.header then
      some (0, { tree with
        root := some tree.nodes.length,
        nodes := tree.nodes ++ [some { data := data, right := none, left := none }],
        size := tree.size + 1 })
    else some (-1, tree)
  | some t =>
    match treenode_read tree.nodes t with
    | none => none
    | some node =>
      if node.right ≠ none then some (-1, tree)
      else if h.header then
        some (0, { tree with
          nodes := tree.nodes.set t (some { node with right := some tree.nodes.length })
            ++ [some { data := data, right := none, left := none }],
          size := tree.size + 1 })
      else some (-1, tree)

/-- Embedding of `nmbintree_merge` for non-`NULL` `leftree` and `rightree`; `none` is the
`NULL` result.  When `nmbintree_alloc` succeeds the test `if (tree != NULL)` returns `NULL`;
when it fails, `tree` is `NULL`, `nmbintree_add_left(NULL, NULL, data)` returns `-1` at its
first test and the function returns `NULL`.  The statements that link the two subtrees
follow these two returns and are never reached. -/
def nmbintree_merge (h : Heap) (_leftree _rightree : nmbintree) (destructor : Option Nat)
    (cmp : Option (Ptr → Ptr → Int)) (_data : Ptr) : Option nmbintree :=
  match nmbintree_alloc h destructor cmp with
  | some _ => none
  | none => none

/-! The representation invariant of the linked list: the chain of nodes linked from `head`,
the calls that build a list, and the invariant in the form the proofs carry. -/

/-- The addresses of the nodes met when following `next` from node pointer `p`, for at most
`fuel` nodes; `none` on a dangling pointer or when the fuel runs out before `NULL`. -/
def nmlist_chain (nodes : List (Option nmlist_element)) : Nat → Option Nat → Option (List Nat)
  | _, none => some []
  | 0, some _ => none
  | fuel + 1, some a =>
    match node_read nodes a with
    | none => none
    | some e =>
      match nmlist_chain nodes fuel e.next with
      | none => none
      | some rest => some (a :: rest)

/-- The nodes of a list in the order in which `next` links them from `head` (one unit of fuel
for every node ever allocated). -/
def nmlist.chain (list : nmlist) : Option (List Nat) :=
  nmlist_chain list.nodes list.nodes.length list.head

/-- Whether an element argument is `NULL` or a node of the list, that is, a node met from
`head`. -/
def nmlist.owns (list : nmlist) : Option Nat → Bool
  | none => true
  | some a =>
    match list.chain with
    | none => false
    | some chain => decide (a ∈ chain)

/-- The lists obtained from `nmlist_alloc` by calls of `nmlist_insert_next` and
`nmlist_remove_next` whose element argument is `NULL` or a node of the list, whatever the
allocator does at each call, an insertion being made only on a list whose `size` is below
`limit`.  As `size` is an `unsigned int`, it is always below `2 ^ 32`: with
`limit = 2 ^ 32` the calls are not restricted. -/
inductive nmlist_reachable (limit : Nat) : nmlist → Prop where
  | alloc (h : Heap) (destructor : Option Nat) (list : nmlist) :
      nmlist_alloc h destructor = some list → nmlist_reachable limit list
  | insert_next (h : Heap) (list : nmlist) (element : Option Nat) (data : Ptr)
      (r : Int × nmlist) :
      nmlist_reachable limit list → list.size < limit → list.owns element = true →
      nmlist_insert_next h list element data = some r → nmlist_reachable limit r.2
  | remove_next (list : nmlist) (element : Option Nat) (r : Ptr × nmlist) :
      nmlist_reachable limit list → list.owns element = true →
      nmlist_remove_next list element = some r → nmlist_reachable limit r.2

/-- Following `next` from `p` meets exactly the live nodes `chain`, in this order, and then
holds `q`. -/
def nmlist_segment (nodes : List (Option nmlist_element)) :
    Option Nat → List Nat → Option Nat → Prop
  | p, [], q => p = q
  | p, a :: rest, q =>
    p = some a ∧ ∃ e, node_read nodes a = some e ∧ nmlist_segment nodes e.next rest q

/-- The representation invariant of a list in the form the proofs carry: the nodes linked from
`head` are pairwise distinct, end in `NULL`, are counted by `size`, and `tail` is the last
of them. -/
def nmlist_sound (list : nmlist) : Prop :=
  ∃ chain : List Nat, chain.Nodup ∧ nmlist_segment list.nodes list.head chain none ∧
    list.size = chain.length ∧ list.tail = chain.getLast?

/-! ## Slot-level lemmas -/

theorem slot_read_append (pre : List Ptr) (x : Ptr) (rest : List Ptr) :
    slot_read (pre ++ x :: rest) pre.length = some x := by
  unfold slot_read
  rw [List.getElem?_append_right (Nat.le_refl _)]
  simp

theorem slot_write_append (pre : List Ptr) (x y : Ptr) (rest : List Ptr) :
    slot_write (pre ++ x :: rest) pre.length y = some (pre ++ y :: rest) := by
  simp [slot_write]

/-- The loop of `nmvect_remove` run for `n` iterations from the slot holding `x`: the `n`
slots after it move one place to the left. -/
theorem nmvect_remove_loop_append (n : Nat) :
    ∀ (pre : List Ptr) (x : Ptr) (rest : List Ptr), n ≤ rest.length →
      pre.length + n ≤ 2147483647 →
      nmvect_remove_loop n pre.length (pre ++ x :: rest)
        = some (pre ++ rest.take n ++ (x :: rest).drop n) := by
  induction n with
  | zero => intro pre x rest _ _; simp [nmvect_remove_loop]
  | succ n ih =>
    intro pre x rest hlen hint
    cases rest with
    | nil => simp at hlen
    | cons y rest =>
      have hlen' : n ≤ rest.length := by simpa using hlen
      have hstep := ih (pre ++ [y]) y rest hlen'
        (by simp only [List.length_append, List.length_singleton]; omega)
      have hread : slot_read (pre ++ x :: y :: rest) (pre.length + 1) = some y := by
        have := slot_read_append (pre ++ [x]) y rest
        simpa using this
      have hguard : ¬ 2147483647 ≤ pre.length := by omega
      rw [nmvect_remove_loop, if_neg hguard, hread]
      simp only [slot_write_append]
      simp only [List.length_append, List.length_singleton, List.append_assoc,
        List.singleton_append] at hstep
      rw [hstep]
      simp

/-! ## Reallocation under an allocator that grants every request -/

theorem realloc_generous (junk : Ptr) (arr : List Ptr) (n : Nat) :
    realloc (Heap.generous junk) arr n
      = some (arr.take n ++ List.replicate (n - arr.length) junk) := by
  simp [realloc, Heap.generous]

theorem nmvect_expand_generous (junk : Ptr) (v : nmvect)
    (hblock : v.array.length = v.capacity) (hrange : 3 * v.capacity < 4294967296) :
    nmvect_expand (Heap.generous junk) v
      = (0, { v with
          array := v.array ++ List.replicate (v.capacity * 3 / 2 + 1 - v.capacity) junk,
          capacity := v.capacity * 3 / 2 + 1 }) := by
  have hmod : v.capacity * 3 % 4294967296 = v.capacity * 3 := Nat.mod_eq_of_lt (by omega)
  have hle : v.array.length ≤ v.capacity * 3 / 2 + 1 := by omega
  simp only [nmvect_expand, hmod, realloc_generous, List.take_of_length_le hle, hblock]

theorem nmvect_get_elems (v : nmvect) (j : Nat) (hj : j < v.size) :
    nmvect_get v j = v.elems[j]? := by
  have hnot : ¬ j ≥ v.size := by omega
  simp [nmvect_get, nmvect.elems, slot_read, List.getElem?_take, hj, hnot]

/-! ## Single-element insertion below `size` -/

/-- The vector on which `nmvect_remove` reads and shifts (after the optional contraction,
whether or not the allocator grants it) still holds every live element. -/
theorem nmvect_remove_room (h : Heap) (v : nmvect)
    (hblock : v.array.length = v.capacity) (hsize : v.size ≤ v.capacity) :
    ∀ v1, v1 = (if v.size = v.capacity * 2 % 4294967296 / 3 + 1
        then (nmvect_contract h v).2 else v) →
      v1.size = v.size ∧ v.size ≤ v1.array.length ∧
      v1.array.take v.size = v.array.take v.size ∧ v1.array.length = v1.capacity ∧
      v1.destructor = v.destructor ∧ v1.cmp = v.cmp ∧
      v1.capacity = (if v.size = v.capacity * 2 % 4294967296 / 3 + 1 ∧ h.grants v.size = true
        then v.size else v.capacity) := by
  intro v1 hv1
  by_cases htrig : v.size = v.capacity * 2 % 4294967296 / 3 + 1
  · rw [if_pos htrig] at hv1
    by_cases hg : h.grants v.size = true
    · have hg1 : h.grants (v.capacity * 2 % 4294967296 / 3 + 1) = true := by
        rw [← htrig]; exact hg
      have hzero : v.capacity * 2 % 4294967296 / 3 + 1 - v.array.length = 0 := by omega
      simp only [nmvect_contract, realloc, hg1, if_true, hzero, List.replicate_zero,
        List.append_nil] at hv1
      subst hv1
      refine ⟨rfl, ?_, ?_, ?_, rfl, rfl, ?_⟩
      · simp only [List.length_take]; omega
      · simp only [← htrig, List.take_take, Nat.min_self]
      · simp only [List.length_take]; omega
      · simp only [htrig.symm, hg, and_self, if_true]
    · have hg1 : h.grants (v.capacity * 2 % 4294967296 / 3 + 1) = false := by
        rw [← htrig]; simpa using hg
      simp only [nmvect_contract, realloc, hg1] at hv1
      subst hv1
      refine ⟨rfl, by omega, rfl, hblock, rfl, rfl, ?_⟩
      simp [hg]
  · rw [if_neg htrig] at hv1
    subst hv1
    refine ⟨rfl, by omega, rfl, hblock, rfl, rfl, ?_⟩
    simp [htrig]

/-- C7, amended: on a vector with `size ≤ capacity` (its block holding `capacity` slots) and
`size ≤ 2 ^ 31` (the `int` counter of the shifting loop holds every index it takes),
`nmvect_remove` at `index < size` returns the element that was at `index`, invokes no
destructor, and leaves `size - 1` elements: the original sequence with position `index`
erased.  This holds under every allocator and also when the call contracts the capacity
(which the last conjunct records: the capacity becomes the pre-removal size exactly when the
trigger `size == capacity * 2 / 3 + 1` fires and the reallocation is granted). -/
theorem nmvect_remove_at (h : Heap) (v : nmvect) (index : Nat)
    (hblock : v.array.length = v.capacity) (hsize : v.size ≤ v.capacity)
    (hint : v.size ≤ 2147483648) (hidx : index < v.size) :
    ∃ data v1, nmvect_remove h v index = some (data, v1, []) ∧
      nmvect_get v index = some data ∧
      v1.size = v.size - 1 ∧
      v1.elems = v.elems.eraseIdx index ∧
      v1.destructor = v.destructor ∧ v1.cmp = v.cmp ∧
      v1.capacity = (if v.size = v.capacity * 2 % 4294967296 / 3 + 1 ∧ h.grants v.size = true
        then v.size else v.capacity) := by
  obtain ⟨hs1, hroom, htake, -, hd, hc, hcap⟩ := nmvect_remove_room h v hblock hsize _ rfl
  generalize hv1 : (if v.size = v.capacity * 2 % 4294967296 / 3 + 1
    then (nmvect_contract h v).2 else v) = w at hs1 hroom htake hd hc hcap
  have hiw : index < w.array.length := by omega
  have hpre : (w.array.take index).length = index := by
    rw [List.length_take]; omega
  have hsplit : w.array = w.array.take index ++ w.array[index] :: w.array.drop (index + 1) := by
    rw [← List.drop_eq_getElem_cons hiw, List.take_append_drop]
  have hrest : w.size - 1 - index ≤ (w.array.drop (index + 1)).length := by
    rw [List.length_drop]; omega
  have hloop := nmvect_remove_loop_append (w.size - 1 - index) (w.array.take index)
    w.array[index] (w.array.drop (index + 1)) hrest (by rw [hpre]; omega)
  rw [hpre, ← hsplit] at hloop
  have hread : slot_read w.array index = some w.array[index] := by
    simp [slot_read, List.getElem?_eq_getElem hiw]
  have hcall : nmvect_remove h v index
      = some (w.array[index], { w with
          array := w.array.take index ++ (w.array.drop (index + 1)).take (w.size - 1 - index)
            ++ (w.array[index] :: w.array.drop (index + 1)).drop (w.size - 1 - index),
          size := w.size - 1 }, []) := by
    have h1 : ¬ index ≥ v.size := by omega
    simp only [nmvect_remove, h1, if_false, hv1, hread, hloop]
  have hget : nmvect_get v index = some w.array[index] := by
    rw [nmvect_get_elems v index hidx]
    simp only [nmvect.elems, ← htake, List.getElem?_take, hidx, if_true,
      List.getElem?_eq_getElem hiw]
  have helems : ({ w with
        array := w.array.take index ++ (w.array.drop (index + 1)).take (w.size - 1 - index)
          ++ (w.array[index] :: w.array.drop (index + 1)).drop (w.size - 1 - index),
        size := w.size - 1 } : nmvect).elems = v.elems.eraseIdx index := by
    have hlen : (w.array.take index
        ++ (w.array.drop (index + 1)).take (w.size - 1 - index)).length = w.size - 1 := by
      simp only [List.length_append, List.length_take, List.length_drop]
      omega
    simp only [nmvect.elems]
    rw [List.take_left' hlen, List.eraseIdx_eq_take_drop_succ, ← htake, List.take_take,
      List.drop_take, Nat.min_eq_left (by omega), hs1]
    congr 2
    omega
  exact ⟨_, _, hcall, hget, by simp only [hs1], helems, hd, hc, hcap⟩

/-- C7 at the specification's scenario: `[10, 99, 20, 30]`, `remove(0)` returns `10` and
leaves `[99, 20, 30]`. -/
theorem nmvect_remove_at_witness :
    ∃ v1, nmvect_remove (Heap.generous 0)
        { destructor := none, cmp := none, capacity := 5, size := 4,
          array := [10, 99, 20, 30, 0] } 0 = some (10, v1, []) ∧
      v1.size = 3 ∧ v1.elems = [99, 20, 30] ∧ v1.capacity = 4 := by
  obtain ⟨data, v1, h1, h2, h3, h4, -, -, h5⟩ := nmvect_remove_at (Heap.generous 0)
    { destructor := none, cmp := none, capacity := 5, size := 4,
      array := [10, 99, 20, 30, 0] } 0 (by decide) (by decide) (by decide) (by decide)
  have hdata : data = 10 := by
    have : some (10 : Ptr) = some data := h2
    exact (Option.some.inj this).symm
  subst hdata
  exact ⟨v1, h1, h3, h4, h5⟩

/-! ## Range removal -/

theorem nmvect_alloc_generous (junk : Ptr) (icap : Nat) (d : Option Nat)
    (c : Option (Ptr → Ptr → Int)) :
    nmvect_alloc (Heap.generous junk) icap d c
      = some { destructor := d, cmp := c, capacity := icap, size := 0,
               array := List.replicate icap 0 } := by
  simp [nmvect_alloc, calloc, Heap.generous]

theorem i32_small (n : Nat) (hn : n < 2147483648) : i32 n = (n : Int) := by
  have hmod : n % 4294967296 = n := Nat.mod_eq_of_lt (by omega)
  simp [i32, hmod, hn]

theorem split_three (arr : List Ptr) (start stop : Nat) (hlt : start ≤ stop) :
    arr.take start ++ (arr.drop start).take (stop - start) ++ arr.drop stop = arr := by
  have hdd : arr.drop stop = (arr.drop start).drop (stop - start) := by
    rw [List.drop_drop]; congr 1; omega
  rw [hdd, List.append_assoc, List.take_append_drop, List.take_append_drop]

/-- C10: out-of-range indices have no effect.  Under every allocator, `nmvect_remove` at
`i ≥ size` returns `NULL`, and `nmvect_insert` and `nmvect_insert_range` at an index above
`size` return `-1`; the vector (size, capacity, slots) is the one passed in, and no
destructor is invoked. -/
theorem nmvect_out_of_range_no_effect (h : Heap) (v other : nmvect) (i j k : Nat) (e : Ptr)
    (hi : v.size ≤ i) (hj : v.size < j) (hk : v.size < k) :
    nmvect_remove h v i = some (0, v, []) ∧
    nmvect_insert h v j e = some (-1, v) ∧
    nmvect_insert_range h v k other = some (-1, v) := by
  refine ⟨?_, ?_, ?_⟩
  · simp [nmvect_remove, hi]
  · simp [nmvect_insert, hj]
  · simp [nmvect_insert_range, hk]

/-- C10 at the specification's scenario `remove(v, size)`, here on `[10, 20, 30]`, together
with `insert` and `insert_range` one position too far. -/
theorem nmvect_out_of_range_no_effect_witness :
    nmvect_remove (Heap.generous 0)
        { destructor := none, cmp := none, capacity := 3, size := 3, array := [10, 20, 30] } 3
      = some (0, { destructor := none, cmp := none, capacity := 3, size := 3,
                   array := [10, 20, 30] }, []) ∧
    nmvect_insert (Heap.generous 0)
        { destructor := none, cmp := none, capacity := 3, size := 3, array := [10, 20, 30] }
        4 99
      = some (-1, { destructor := none, cmp := none, capacity := 3, size := 3,
                    array := [10, 20, 30] }) ∧
    nmvect_insert_range (Heap.generous 0)
        { destructor := none, cmp := none, capacity := 3, size := 3, array := [10, 20, 30] }
        4 { destructor := none, cmp := none, capacity := 1, size := 1, array := [7] }
      = some (-1, { destructor := none, cmp := none, capacity := 3, size := 3,
                    array := [10, 20, 30] }) :=
  nmvect_out_of_range_no_effect (Heap.generous 0)
    { destructor := none, cmp := none, capacity := 3, size := 3, array := [10, 20, 30] }
    { destructor := none, cmp := none, capacity := 1, size := 1, array := [7] }
    3 4 4 99 (by decide) (by decide) (by decide)

/-! ## Where the code departs from its documentation -/

/-- C1: `nmvect_insert_range` at the specification's range scenario.  With
`vect = [1, 2, 3, 4]`, `addvect = [8, 9]` and `index = 1` the call returns `0` but leaves
seven elements `[1, 8, 9, 4, 2, 3, 4]`, not the six of the splice `[1, 8, 9, 2, 3, 4]`: the
block is written over the old elements and the whole old tail is then appended. -/
theorem nmvect_insert_range_scenario :
    (nmvect_insert_range (Heap.generous 0)
        { destructor := none, cmp := none, capacity := 4, size := 4, array := [1, 2, 3, 4] } 1
        { destructor := none, cmp := none, capacity := 2, size := 2, array := [8, 9] }).map
      (fun r => (r.1, r.2.size, r.2.elems)) = some (0, 7, [1, 8, 9, 4, 2, 3, 4]) := by
  decide

/-- C2: removing `[0, 1)` from `[1, 2, 3, 4]` and inserting the result back at `0` does not
restore the vector: it ends with six elements `[1, 3, 4, 2, 3, 4]`. -/
theorem nmvect_remove_insert_range_round_trip :
    ((nmvect_remove_range (Heap.generous 0)
        { destructor := none, cmp := none, capacity := 4, size := 4, array := [1, 2, 3, 4] }
        0 1).bind
      (fun r => r.1.bind (fun result =>
        (nmvect_insert_range (Heap.generous 0) r.2 0 result).map
          (fun q => (result.elems, r.2.elems, q.1, q.2.size, q.2.elems)))))
      = some ([1], [2, 3, 4], 0, 6, [1, 3, 4, 2, 3, 4]) := by
  decide

/-- C3: `nmvect_insert` at `index == size` is not `nmvect_append`.  On a vector of capacity
`2` holding `[5]`, `nmvect_append` of `9` gives size `2`; `nmvect_insert` at `1` stores the
same slot but leaves size `3`, above the capacity, because `size` is incremented by the
append it calls and then once more. -/
theorem nmvect_insert_at_size_vs_append :
    (nmvect_append (Heap.generous 0)
        { destructor := none, cmp := none, capacity := 2, size := 1, array := [5, 0] } 9).map
      (fun r => (r.1, r.2.size, r.2.capacity, r.2.array)) = some (0, 2, 2, [5, 9]) ∧
    (nmvect_insert (Heap.generous 0)
        { destructor := none, cmp := none, capacity := 2, size := 1, array := [5, 0] } 1 9).map
      (fun r => (r.1, r.2.size, r.2.capacity, r.2.array)) = some (0, 3, 2, [5, 9]) := by
  decide

/-- C4: the size/capacity invariant is broken by the first insertion into a fresh vector:
after `nmvect_alloc(1, ...)` and `nmvect_insert(v, 0, 7)` the size is `2` and the capacity
`1`. -/
theorem nmvect_alloc_insert_breaks_invariant :
    ((nmvect_alloc (Heap.generous 0) 1 none none).bind
        (fun v => nmvect_insert (Heap.generous 0) v 0 7)).map
      (fun r => (r.1, r.2.size, r.2.capacity, decide (r.2.size ≤ r.2.capacity)))
      = some (0, 2, 1, false) := by
  decide

/-- C5: the replay of the single call `insert(0, 7)` on an empty vector (capacity `4`) is
not simulated by the reference list: the list is `[7]`, the vector reports size `2` and
shows `7` followed by the `NULL` of the untouched slot. -/
theorem replay_insert_departs_from_reference :
    replay_reference [Call.insert 0 7] [] = [7] ∧
    ((nmvect_alloc (Heap.generous 0) 4 none none).bind (replay (Heap.generous 0)
        [Call.insert 0 7])).map (fun v => (v.size, v.observe)) = some (2, [some 7, some 0]) := by
  decide

/-- C9: `nmvect_remove_range` with `start > stop`.  On a vector of capacity `5` holding
`[1, 2, 3]`, the call with `start = 2`, `stop = 1` passes the guard (the unsigned difference
`stop - start` is `4294967295`, not `≤ 0`); once the allocator grants the block of that many
slots the call returns a vector (not `NULL`) and leaves `v` with size `4`, capacity `6` and
elements `[1, 2, 2, 2]`. -/
theorem nmvect_remove_range_start_above_stop :
    (nmvect_remove_range (Heap.generous 0)
        { destructor := none, cmp := none, capacity := 5, size := 3,
          array := [1, 2, 3, 0, 0] } 2 1).map
      (fun r => (r.1.map (fun rv => (rv.size, rv.capacity)), r.2.size, r.2.capacity, r.2.elems))
      = some (some (0, 4294967295), 4, 6, [1, 2, 2, 2]) := by
  decide

/-! ## Accessors -/

/-- C11: `nmvect_set` at `i < size` (on a vector whose block holds `capacity ≥ size` slots)
returns `0`; afterwards `nmvect_get` gives `e` at `i` and what it gave before at every
`j ≠ i`, and size and capacity are unchanged.  On any vector `w` and any `k ≥ size`,
`nmvect_get` returns `NULL` and `nmvect_set` returns `-1` leaving `w` as it was. -/
theorem nmvect_get_set_accessors (v w : nmvect) (i k : Nat) (e : Ptr)
    (hblock : v.array.length = v.capacity) (hsize : v.size ≤ v.capacity)
    (hi : i < v.size) (hk : w.size ≤ k) :
    (∃ v1, nmvect_set v i e = some (0, v1) ∧
      nmvect_get v1 i = some e ∧
      (∀ j, j ≠ i → nmvect_get v1 j = nmvect_get v j) ∧
      v1.size = v.size ∧ v1.capacity = v.capacity ∧
      v1.destructor = v.destructor ∧ v1.cmp = v.cmp) ∧
    nmvect_get w k = some 0 ∧
    nmvect_set w k e = some (-1, w) := by
  have hlen : i < v.array.length := by omega
  have hnot : ¬ i ≥ v.size := by omega
  refine ⟨⟨{ v with array := v.array.set i e }, ?_, ?_, ?_, rfl, rfl, rfl, rfl⟩, ?_, ?_⟩
  · simp [nmvect_set, hnot, slot_write, hlen]
  · simp [nmvect_get, hnot, slot_read, hlen]
  · intro j hj
    by_cases hjs : j ≥ v.size
    · simp [nmvect_get, hjs]
    · have hne : i ≠ j := fun h => hj h.symm
      simp [nmvect_get, hjs, slot_read, List.getElem?_set_ne hne]
  · simp [nmvect_get, hk]
  · simp [nmvect_set, hk]

/-- C11 on `[10, 20, 30]`: `set(1, 99)` gives `get(1) = 99`; `get(3)` is `NULL` and
`set(3, 99)` is refused. -/
theorem nmvect_get_set_accessors_witness :
    (∃ v1, nmvect_set
        { destructor := none, cmp := none, capacity := 3, size := 3, array := [10, 20, 30] }
        1 99 = some (0, v1) ∧ nmvect_get v1 1 = some 99 ∧ v1.size = 3 ∧ v1.capacity = 3) ∧
    nmvect_get
        { destructor := none, cmp := none, capacity := 3, size := 3, array := [10, 20, 30] } 3
      = some 0 := by
  obtain ⟨⟨v1, h1, h2, -, h4, h5, -, -⟩, h6, -⟩ := nmvect_get_set_accessors
    { destructor := none, cmp := none, capacity := 3, size := 3, array := [10, 20, 30] }
    { destructor := none, cmp := none, capacity := 3, size := 3, array := [10, 20, 30] }
    1 3 99 (by decide) (by decide) (by decide) (by decide)
  exact ⟨⟨v1, h1, h2, h4, h5⟩, h6⟩

/-! ## Search -/

/-- C12: `nmvect_contains` with numeric equality on `[5, 3]`.  Searching `5` (present)
returns `0`, not `1`; searching `7` (absent) returns `-1`, not `0`; and `-1` is also what a
vector without comparator gives. -/
theorem nmvect_contains_return_codes :
    nmvect_contains
        { destructor := none, cmp := some numeric_equality, capacity := 2, size := 2,
          array := [5, 3] } 5 = some 0 ∧
    nmvect_contains
        { destructor := none, cmp := some numeric_equality, capacity := 2, size := 2,
          array := [5, 3] } 7 = some (-1) ∧
    nmvect_contains
        { destructor := none, cmp := none, capacity := 2, size := 2, array := [5, 3] } 7
      = some (-1) := by
  decide

theorem chain_nodes_length (m : Nat) : (chain_nodes m).length = m := by
  simp [chain_nodes]

theorem chain_nodes_getElem? (m k : Nat) (hk : k < m) :
    (chain_nodes m)[k]?
      = some (some { data := k + 1, next := if k + 1 < m then some (k + 1) else none }) := by
  simp [chain_nodes, List.getElem?_map, List.getElem?_range hk]

theorem node_read_chain_nodes (m k : Nat) (hk : k < m) :
    node_read (chain_nodes m) k
      = some { data := k + 1, next := if k + 1 < m then some (k + 1) else none } := by
  simp [node_read, chain_nodes_getElem? m k hk]

/-- Linking a new last node behind the chain of `m + 1` nodes gives the chain of `m + 2`. -/
theorem chain_nodes_snoc (m : Nat) :
    (chain_nodes (m + 1)).set m (some { data := m + 1, next := some (m + 1) })
        ++ [some { data := m + 2, next := none }]
      = chain_nodes (m + 2) := by
  apply List.ext_getElem?
  intro k
  by_cases hk : k < m + 1
  · rw [List.getElem?_append_left (by simp [chain_nodes_length]; omega), List.getElem?_set,
      chain_nodes_getElem? (m + 2) k (by omega)]
    by_cases hkm : m = k
    · subst hkm
      simp [chain_nodes_length]
    · rw [if_neg hkm, chain_nodes_getElem? (m + 1) k hk]
      have h1 : k + 1 < m + 1 := by omega
      have h2 : k + 1 < m + 2 := by omega
      simp [h1, h2]
  · by_cases hk2 : k = m + 1
    · subst hk2
      rw [List.getElem?_append_right (by simp [chain_nodes_length]),
        chain_nodes_getElem? (m + 2) (m + 1) (by omega)]
      simp [chain_nodes_length]
    · rw [List.getElem?_eq_none (by simp [chain_nodes_length]; omega),
        List.getElem?_eq_none (by simp [chain_nodes_length]; omega)]

/-- One insertion after the tail of the chain of `m` nodes, under a granting allocator. -/
theorem nmlist_insert_next_chain (junk : Ptr) (m : Nat) :
    nmlist_insert_next (Heap.generous junk) (chain_list m) (nmlist_tail (chain_list m)) (m + 1)
      = some (0, chain_list (m + 1)) := by
  cases m with
  | zero => rfl
  | succ m =>
    have hread := node_read_chain_nodes (m + 1) m (by omega)
    simp only [Nat.lt_irrefl, if_false] at hread
    have hwrap : ((m + 1) % 4294967296 + 1) % 4294967296 = (m + 1 + 1) % 4294967296 := by
      omega
    simp only [nmlist_insert_next, nmlist_tail, chain_list, Heap.generous, if_true,
      Nat.succ_ne_zero, Nat.add_one_ne_zero, if_false, Nat.add_sub_cancel, hread,
      chain_nodes_length, chain_nodes_snoc, hwrap]

/-- Following `next` through the chain of `m` nodes from node `a` meets the pointers
`a + 1, ..., m`. -/
theorem nmlist_walk_chain (m : Nat) :
    ∀ (fuel a : Nat), a < m → m - a ≤ fuel →
      nmlist_walk (chain_nodes m) fuel (some a) = some (List.range' (a + 1) (m - a)) := by
  intro fuel
  induction fuel with
  | zero => intro a ha hf; omega
  | succ fuel ih =>
    intro a ha hf
    rw [nmlist_walk, node_read_chain_nodes m a ha]
    by_cases hnext : a + 1 < m
    · have hcount : m - a = (m - (a + 1)) + 1 := by omega
      simp only [hnext, if_true, ih (a + 1) hnext (by omega)]
      rw [hcount, List.range'_succ]
    · have hcount : m - a = 1 := by omega
      simp only [hnext, if_false, nmlist_walk, hcount]
      rfl

theorem chain_list_items (m : Nat) : (chain_list m).items = some (List.range' 1 m) := by
  cases m with
  | zero => rfl
  | succ m =>
    have hwalk := nmlist_walk_chain (m + 1) (m + 1) 0 (by omega) (by omega)
    simpa [nmlist.items, chain_list, chain_nodes_length] using hwalk

/-- Reading the cells behind the pointers `a + 1, ..., a + n` gives the cells `a .. a+n-1`. -/
theorem read_cells_range (cells : List Nat) (n : Nat) :
    ∀ a, a + n ≤ cells.length →
      read_cells cells (List.range' (a + 1) n) = some ((cells.drop a).take n) := by
  induction n with
  | zero => intro a _; simp [read_cells]
  | succ n ih =>
    intro a ha
    have hlt : a < cells.length := by omega
    rw [List.range'_succ, read_cells, ih (a + 1) (by omega)]
    simp only [Nat.add_one_ne_zero, if_false, Nat.add_sub_cancel,
      List.getElem?_eq_getElem hlt]
    rw [List.drop_eq_getElem_cons hlt, List.take_succ_cons]

/-- The loop of `nmvect_occurence` started on the chain built for `cells`: it appends to the
cells the matching indices of `[i, i + n)`, in order, and links one node per index. -/
theorem nmvect_occurence_loop_chain (junk : Ptr) (c : Ptr → Ptr → Int) (arr : List Ptr)
    (d : Ptr) (n : Nat) :
    ∀ (i : Nat) (cells : List Nat), i + n ≤ arr.length → i + n ≤ 2147483647 →
      nmvect_occurence_loop (Heap.generous junk) (some c) n i arr d
          (some (chain_list cells.length)) cells
        = some (some
            (chain_list (cells
                ++ (List.range' i n).filter (fun k => decide (c (arr.getD k 0) d = 0))).length,
              cells ++ (List.range' i n).filter (fun k => decide (c (arr.getD k 0) d = 0)))) := by
  induction n with
  | zero => intro i cells _ _; simp [nmvect_occurence_loop]
  | succ n ih =>
    intro i cells hlen hint
    have hi : i < arr.length := by omega
    have hread : slot_read arr i = some arr[i] := by
      simp [slot_read, List.getElem?_eq_getElem hi]
    have hgetD : arr.getD i 0 = arr[i] := List.getD_eq_getElem arr 0 hi
    have hguard : ¬ 2147483647 ≤ i := by omega
    rw [nmvect_occurence_loop, hread, List.range'_succ, List.filter_cons]
    by_cases hmatch : c arr[i] d = 0
    · have hstep := ih (i + 1) (cells ++ [i]) (by omega) (by omega)
      simp only [List.length_append, List.length_singleton, List.append_assoc,
        List.singleton_append] at hstep
      have hheader : (Heap.generous junk).header = true := rfl
      simp only [hmatch, if_true, hheader, nmlist_insert_next_chain junk cells.length,
        ne_eq, not_true_eq_false, if_false, hguard, hgetD, decide_True]
      rw [hstep]
      simp
    · have hstep := ih (i + 1) cells (by omega) (by omega)
      simp only [hmatch, if_false, hguard, hgetD, decide_False]
      rw [hstep]
      simp

/-- C13, amended: for a vector with a comparator (its block holding `capacity ≥ size` slots)
of `size < 2 ^ 31` (the `int` loop counter holds every index) and every request granted,
`nmvect_occurence` returns a list, never `NULL`, whose items read head
to tail are the indices `found`: an index is in `found` exactly when it is below `size` and
the comparator gives `0` on the element there, and `found` is strictly ascending (so every
index occurs once); with no match the list is empty.  The call only reads `v`: the embedding
takes the vector as a value and produces no new vector state. -/
theorem nmvect_occurence_ascending_matches (junk : Ptr) (v : nmvect) (c : Ptr → Ptr → Int)
    (d : Ptr) (hcmp : v.cmp = some c) (hblock : v.array.length = v.capacity)
    (hsize : v.size ≤ v.capacity) (hint : v.size < 2147483648) :
    ∃ rlist cells found,
      nmvect_occurence (Heap.generous junk) v d = some (some (rlist, cells)) ∧
      occurence_indices (rlist, cells) = some found ∧
      rlist.size = found.length ∧
      (∀ i, i ∈ found ↔ ∃ x, v.elems[i]? = some x ∧ c x d = 0) ∧
      found.Pairwise (fun a b => a < b) := by
  have halloc : nmlist_alloc (Heap.generous junk) (some nmaux_primitive_destructor)
      = some (chain_list ([] : List Nat).length) := rfl
  have hloop := nmvect_occurence_loop_chain junk c v.array d v.size 0 [] (by omega)
    (by omega)
  have hfew : ((List.range v.size).filter
      (fun k => decide (c (v.array.getD k 0) d = 0))).length < 4294967296 := by
    have hle := List.length_filter_le (fun k => decide (c (v.array.getD k 0) d = 0))
      (List.range v.size)
    rw [List.length_range] at hle
    omega
  rw [List.nil_append, ← List.range_eq_range'] at hloop
  refine ⟨chain_list
      ((List.range v.size).filter (fun k => decide (c (v.array.getD k 0) d = 0))).length,
    (List.range v.size).filter (fun k => decide (c (v.array.getD k 0) d = 0)),
    (List.range v.size).filter (fun k => decide (c (v.array.getD k 0) d = 0)),
    ?_, ?_, Nat.mod_eq_of_lt hfew, ?_, ?_⟩
  · rw [nmvect_occurence, hcmp, halloc, hloop]
  · have hread := read_cells_range
      ((List.range v.size).filter (fun k => decide (c (v.array.getD k 0) d = 0)))
      ((List.range v.size).filter (fun k => decide (c (v.array.getD k 0) d = 0))).length
      0 (by omega)
    simp only [occurence_indices, chain_list_items]
    rw [hread, List.drop_zero, List.take_length]
  · intro i
    rw [List.mem_filter, List.mem_range]
    constructor
    · rintro ⟨hi, hp⟩
      have hlen : i < v.array.length := by omega
      refine ⟨v.array[i], ?_, ?_⟩
      · simp [nmvect.elems, List.getElem?_take, hi, List.getElem?_eq_getElem hlen]
      · rw [List.getD_eq_getElem v.array 0 hlen] at hp
        exact of_decide_eq_true hp
    · rintro ⟨x, hx, hc⟩
      have hi : i < v.size := by
        by_contra hcon
        simp [nmvect.elems, List.getElem?_take, hcon] at hx
      have hlen : i < v.array.length := by omega
      refine ⟨hi, ?_⟩
      simp only [nmvect.elems, List.getElem?_take, hi, if_true,
        List.getElem?_eq_getElem hlen] at hx
      rw [List.getD_eq_getElem v.array 0 hlen, Option.some.inj hx]
      exact decide_eq_true hc
  · exact (List.pairwise_lt_range v.size).filter _

/-- C13 at the specification's scenario: `[5, 3, 5, 5, 1]` with numeric equality,
`occurrences(5)` gives the indices `[0, 2, 3]`. -/
theorem nmvect_occurence_ascending_matches_witness :
    ∃ rlist cells,
      nmvect_occurence (Heap.generous 0)
        { destructor := none, cmp := some numeric_equality, capacity := 5, size := 5,
          array := [5, 3, 5, 5, 1] } 5 = some (some (rlist, cells)) ∧
      occurence_indices (rlist, cells) = some [0, 2, 3] ∧ rlist.size = 3 := by
  obtain ⟨rlist, cells, found, h1, h2, h3, -, -⟩ := nmvect_occurence_ascending_matches 0
    { destructor := none, cmp := some numeric_equality, capacity := 5, size := 5,
      array := [5, 3, 5, 5, 1] } numeric_equality 5 rfl (by decide) (by decide) (by decide)
  have heval : nmvect_occurence (Heap.generous 0)
      { destructor := none, cmp := some numeric_equality, capacity := 5, size := 5,
        array := [5, 3, 5, 5, 1] } 5
      = some (some (chain_list 3, [0, 2, 3])) := rfl
  rw [heval] at h1
  have hpair := Option.some.inj (Option.some.inj h1)
  have hl : rlist = chain_list 3 := (congrArg Prod.fst hpair).symm
  have hc : cells = [0, 2, 3] := (congrArg Prod.snd hpair).symm
  subst hl hc
  exact ⟨_, _, heval, by decide, rfl⟩

/-! ## Destruction and purge -/

/-- The loop of `nmvect_free` over slots inside the block: the destructor is invoked on the
slots `i .. i+n-1` that are not `NULL`, in order. -/
theorem nmvect_free_loop_calls (arr : List Ptr) (n : Nat) :
    ∀ i, i + n ≤ arr.length → i + n ≤ 2147483647 →
      nmvect_free_loop n i arr
        = some (((arr.drop i).take n).filter (fun x => decide (x ≠ 0))) := by
  induction n with
  | zero => intro i _ _; simp [nmvect_free_loop]
  | succ n ih =>
    intro i hlen hint
    have hi : i < arr.length := by omega
    have hread : slot_read arr i = some arr[i] := by
      simp [slot_read, List.getElem?_eq_getElem hi]
    have hguard : ¬ 2147483647 ≤ i := by omega
    rw [nmvect_free_loop, if_neg hguard, hread, ih (i + 1) (by omega) (by omega),
      List.drop_eq_getElem_cons hi, List.take_succ_cons, List.filter_cons]
    by_cases hnull : arr[i] = 0 <;> simp [hnull]

/-- C14: `nmvect_purge` on `[10, 20, 30]` with a destructor, at index `1`.  The call returns
`0` but removes nothing (size `3`, elements as before) and its single destructor invocation
receives `NULL`, not the element `20`. -/
theorem nmvect_purge_removes_nothing :
    (nmvect_purge
        { destructor := some 1, cmp := none, capacity := 3, size := 3, array := [10, 20, 30] }
        1).map (fun r => (r.1, r.2.1.size, r.2.1.elems, r.2.2))
      = some (0, 3, [10, 20, 30], [0]) := by
  decide

/-- C16, amended: for a vector with a destructor (its block holding `capacity ≥ size`
slots) of `size < 2 ^ 31`, `nmvect_free` returns `0` and invokes the destructor exactly on the present elements
that are not `NULL` (slots `0 .. size-1`), once each, in ascending index order; no slot at
an index `≥ size` is passed to it. -/
theorem nmvect_free_calls (v : nmvect) (f : Nat) (hdes : v.destructor = some f)
    (hblock : v.array.length = v.capacity) (hsize : v.size ≤ v.capacity)
    (hint : v.size < 2147483648) :
    nmvect_free v = some (0, none, v.elems.filter (fun x => decide (x ≠ 0))) := by
  have hloop := nmvect_free_loop_calls v.array v.size 0 (by omega) (by omega)
  rw [List.drop_zero] at hloop
  simp only [nmvect_free, hdes, hloop, nmvect.elems]

/-- C16, amended, on a vector of capacity `4` holding `[10, NULL, 30]`: the destructor gets
`10` then `30`, and the spare slot (holding `7`) is not passed to it. -/
theorem nmvect_free_calls_witness :
    nmvect_free
        { destructor := some 1, cmp := none, capacity := 4, size := 3,
          array := [10, 0, 30, 7] }
      = some (0, none, [10, 30]) :=
  nmvect_free_calls
    { destructor := some 1, cmp := none, capacity := 4, size := 3, array := [10, 0, 30, 7] }
    1 rfl (by decide) (by decide) (by decide)

/-- C17: without a destructor `nmvect_free` returns `-1`, invokes nothing and leaves the
vector (size, capacity, slots) as it was, not released. -/
theorem nmvect_free_without_destructor (v : nmvect) (hdes : v.destructor = none) :
    nmvect_free v = some (-1, some v, []) := by
  simp only [nmvect_free, hdes]

/-- C17 on `[10, 20, 30]` without destructor. -/
theorem nmvect_free_without_destructor_witness :
    nmvect_free
        { destructor := none, cmp := none, capacity := 3, size := 3, array := [10, 20, 30] }
      = some (-1, some { destructor := none, cmp := none, capacity := 3, size := 3,
                         array := [10, 20, 30] }, []) :=
  nmvect_free_without_destructor
    { destructor := none, cmp := none, capacity := 3, size := 3, array := [10, 20, 30] } rfl

/-- C18: the purge operations on `[10, 20, 30]` without destructor, with in-range arguments.
`nmvect_purge` at index `1` reaches the call through the `NULL` destructor (undefined
behaviour) instead of returning `-1`; `nmvect_purge_range` over `[0, 1)` returns `0` and
removes the element, leaving `[20, 30]`. -/
theorem nmvect_purge_without_destructor :
    nmvect_purge
        { destructor := none, cmp := none, capacity := 3, size := 3, array := [10, 20, 30] } 1
      = none ∧
    (nmvect_purge_range (Heap.generous 0)
        { destructor := none, cmp := none, capacity := 3, size := 3, array := [10, 20, 30] }
        0 1).map (fun r => (r.1, r.2.1.size, r.2.1.elems, r.2.2))
      = some (0, 2, [20, 30], []) := by
  constructor
  · rfl
  · decide

/-! ## Capacity policy -/

/-- C19: on a full vector (`size == capacity == c`, block of `c` slots, `3 * c < 2 ^ 32`,
requests granted) `nmvect_append` returns `0`, the capacity becomes `c * 3 / 2 + 1`, which
is above `c`, the `c` elements keep their positions and the new element is at index `c`.  On
a vector `w` with `size < capacity`, under every allocator, `nmvect_append` returns `0` and
leaves the capacity unchanged. -/
theorem nmvect_append_growth (h : Heap) (junk : Ptr) (v w : nmvect) (e : Ptr)
    (hblock : v.array.length = v.capacity) (hfull : v.size = v.capacity)
    (hrange : 3 * v.capacity < 4294967296)
    (hblockw : w.array.length = w.capacity) (hroom : w.size < w.capacity) :
    (∃ v1, nmvect_append (Heap.generous junk) v e = some (0, v1) ∧
      v1.capacity = v.capacity * 3 / 2 + 1 ∧ v.capacity < v1.capacity ∧
      v1.size = v.size + 1 ∧ v1.elems = v.elems ++ [e] ∧
      (∀ j, j < v.size → nmvect_get v1 j = nmvect_get v j) ∧
      nmvect_get v1 v.size = some e) ∧
    (∃ w1, nmvect_append h w e = some (0, w1) ∧ w1.capacity = w.capacity ∧
      w1.size = w.size + 1) := by
  constructor
  · have hk : v.capacity * 3 / 2 + 1 - v.capacity
        = (v.capacity * 3 / 2 + 1 - v.capacity - 1) + 1 := by omega
    have hrep : List.replicate (v.capacity * 3 / 2 + 1 - v.capacity) junk
        = junk :: List.replicate (v.capacity * 3 / 2 + 1 - v.capacity - 1) junk := by
      rw [hk, List.replicate_succ]
      simp
    have hlen : v.array.length = v.size := by omega
    have hwrite := slot_write_append v.array junk e
      (List.replicate (v.capacity * 3 / 2 + 1 - v.capacity - 1) junk)
    rw [hblock] at hwrite
    have hcall : nmvect_append (Heap.generous junk) v e
        = some (0, { v with
            array := v.array
              ++ e :: List.replicate (v.capacity * 3 / 2 + 1 - v.capacity - 1) junk,
            capacity := v.capacity * 3 / 2 + 1,
            size := v.size + 1 }) := by
      simp only [nmvect_append, hfull, if_true, nmvect_expand_generous junk v hblock hrange,
        ne_eq, not_true_eq_false, if_false, hrep, hwrite]
    have helems : ({ v with
          array := v.array
            ++ e :: List.replicate (v.capacity * 3 / 2 + 1 - v.capacity - 1) junk,
          capacity := v.capacity * 3 / 2 + 1,
          size := v.size + 1 } : nmvect).elems = v.elems ++ [e] := by
      simp only [nmvect.elems]
      rw [← hlen, List.take_length, List.take_append]
      simp
    have hl : v.elems.length = v.size := by
      simp only [nmvect.elems, List.length_take]; omega
    refine ⟨_, hcall, rfl, by simp only; omega, rfl, helems, ?_, ?_⟩
    · intro j hj
      rw [nmvect_get_elems _ _ (by simp only; omega), helems, nmvect_get_elems _ _ hj,
        List.getElem?_append_left (by omega)]
    · rw [nmvect_get_elems _ _ (by simp only; omega), helems,
        List.getElem?_append_right (by omega), hl]
      simp
  · have hne : ¬ w.size = w.capacity := by omega
    have hin : w.size < w.array.length := by omega
    refine ⟨{ w with array := w.array.set w.size e, size := w.size + 1 }, ?_, rfl, rfl⟩
    simp [nmvect_append, hne, slot_write, hin]

/-- C19 at the specification's scenario: the vector from `create(1)` after its first append
(size and capacity `1`); the next append yields capacity `1 * 3 / 2 + 1 = 2`. -/
theorem nmvect_append_growth_witness :
    ∃ v1, nmvect_append (Heap.generous 0)
        { destructor := none, cmp := none, capacity := 1, size := 1, array := [10] } 20
        = some (0, v1) ∧
      v1.capacity = 2 ∧ v1.size = 2 ∧ v1.elems = [10, 20] := by
  obtain ⟨⟨v1, h1, h2, -, h4, h5, -, -⟩, -⟩ := nmvect_append_growth (Heap.generous 0) 0
    { destructor := none, cmp := none, capacity := 1, size := 1, array := [10] }
    { destructor := none, cmp := none, capacity := 2, size := 1, array := [10, 0] } 20
    (by decide) (by decide) (by decide) (by decide) (by decide)
  exact ⟨v1, h1, h2, h4, h5⟩

/-- C20: `nmvect_modcap` with a delta below `-capacity`.  On a vector of capacity `3`,
`modif = -5` makes `capacity + modif` wrap to `4294967294` in `unsigned int`, which passes
the `< 1` test; once the allocator grants that request the call returns `0` and the capacity
is `4294967294`, where `3 + (-5) < 1` calls for `-1` and an unchanged capacity.  With
`modif = -3` (sum exactly `0`) the call does return `-1`. -/
theorem nmvect_modcap_negative_sum :
    (nmvect_modcap (Heap.generous 0)
        { destructor := none, cmp := none, capacity := 3, size := 1, array := [10, 0, 0] }
        (-5)).1 = 0 ∧
    (nmvect_modcap (Heap.generous 0)
        { destructor := none, cmp := none, capacity := 3, size := 1, array := [10, 0, 0] }
        (-5)).2.capacity = 4294967294 ∧
    (nmvect_modcap (Heap.generous 0)
        { destructor := none, cmp := none, capacity := 3, size := 1, array := [10, 0, 0] }
        (-3)).1 = -1 := by
  decide

/-! ## The linked list and the binary tree against their documentation -/

/-- C22: `nmlist_insert_index` on the list `[10, 20]` (built by two insertions at the head).
With `index = 1` and data `99` the call returns `0` and the list becomes `[10, 20, 99]`:
the walk stops on the node at position `index` and the new node is linked after it, so
`nmlist_get_index(l, 1)` is still `20`.  With `index = 2 = size` the walk ends on `NULL` and
the new node is linked at the head: `[99, 10, 20]`. -/
theorem nmlist_insert_index_off_by_one :
    ((nmlist_alloc (Heap.generous 0) none).bind (fun l0 =>
      (nmlist_insert_next (Heap.generous 0) l0 none 20).bind (fun r1 =>
      (nmlist_insert_next (Heap.generous 0) r1.2 none 10).bind (fun r2 =>
      (nmlist_insert_index (Heap.generous 0) r2.2 1 99).bind (fun r3 =>
      (nmlist_insert_index (Heap.generous 0) r2.2 2 99).map (fun r4 =>
        (r2.2.items, r3.1, r3.2.items, r3.2.size, nmlist_get_index r3.2 1,
          r4.1, r4.2.items)))))))
      = some (some [10, 20], 0, some [10, 20, 99], 3, some 20, 0, some [99, 10, 20]) := by
  rfl

/-- C23: `nmlist_purge_index` on the list `[10, 20, 30]` with a destructor, at index `1`.
The call returns `0` and removes `20`, but it invokes no destructor and leaves
`list->destructor` set to `NULL`. -/
theorem nmlist_purge_index_drops_destructor :
    ((nmlist_alloc (Heap.generous 0) (some 1)).bind (fun l0 =>
      (nmlist_insert_next (Heap.generous 0) l0 none 30).bind (fun r1 =>
      (nmlist_insert_next (Heap.generous 0) r1.2 none 20).bind (fun r2 =>
      (nmlist_insert_next (Heap.generous 0) r2.2 none 10).bind (fun r3 =>
      (nmlist_purge_index r3.2 1).map (fun r4 =>
        (r3.2.items, r3.2.destructor, r4.1, r4.2.1.items, r4.2.1.size, r4.2.1.destructor,
          r4.2.2)))))))
      = some (some [10, 20, 30], some 1, 0, some [10, 30], 2, none, []) := by
  rfl

/-- C25: root insertion and the left-child test of `nmbintree_add_left`.  On the empty tree
from `nmbintree_alloc`, `nmbintree_add_left(tree, NULL, 7)` and
`nmbintree_add_right(tree, NULL, 7)` return `-1` and leave size `0` and no root.  On a tree
whose root has a left child only, `nmbintree_add_left(tree, root, 9)` returns `0` and
replaces that child; on a tree whose root has a right child only it returns `-1`. -/
theorem nmbintree_add_left_rejects_empty_tree :
    ((nmbintree_alloc (Heap.generous 0) none none).bind (fun t =>
        nmbintree_add_left (Heap.generous 0) t none 7)).map
      (fun r => (r.1, r.2.size, r.2.root)) = some (-1, 0, none) ∧
    ((nmbintree_alloc (Heap.generous 0) none none).bind (fun t =>
        nmbintree_add_right (Heap.generous 0) t none 7)).map
      (fun r => (r.1, r.2.size, r.2.root)) = some (-1, 0, none) ∧
    (nmbintree_add_left (Heap.generous 0)
        { size := 2, cmp := none, destructor := none, root := some 0,
          nodes := [some { data := 1, right := none, left := some 1 },
                    some { data := 2, right := none, left := none }] } (some 0) 9).map
      (fun r => (r.1, r.2.size, r.2.nodes))
      = some (0, 3, [some { data := 1, right := none, left := some 2 },
                     some { data := 2, right := none, left := none },
                     some { data := 9, right := none, left := none }]) ∧
    (nmbintree_add_left (Heap.generous 0)
        { size := 2, cmp := none, destructor := none, root := some 0,
          nodes := [some { data := 1, right := some 1, left := none },
                    some { data := 2, right := none, left := none }] } (some 0) 9).map
      (fun r => (r.1, r.2.size)) = some (-1, 2) := by
  decide

/-- C26: `nmbintree_merge` returns `NULL` for every pair of trees, every data and every
allocator: when the allocation of the new tree succeeds the function returns `NULL` at once
(`if (tree != NULL) return NULL;`), and when it fails the root cannot be added. -/
theorem nmbintree_merge_always_null (h : Heap) (leftree rightree : nmbintree)
    (destructor : Option Nat) (cmp : Option (Ptr → Ptr → Int)) (data : Ptr) :
    (nmbintree_merge h leftree rightree destructor cmp data).isNone = true := by
  unfold nmbintree_merge
  cases nmbintree_alloc h destructor cmp <;> rfl

/-- C27, as stated, fails: removing from the full vector `[1, 2, 3, 4]` of capacity `4`
leaves size `3 = 4 * 2 / 3 + 1`, yet the capacity is still `4`. -/
theorem nmvect_remove_post_size_no_contraction :
    (nmvect_remove (Heap.generous 0)
        { destructor := none, cmp := none, capacity := 4, size := 4, array := [1, 2, 3, 4] }
        0).map (fun r => (r.2.1.size, r.2.1.capacity)) = some (3, 4) ∧
    4 * 2 / 3 + 1 = 3 := by
  decide

/-! ## Appending, one element at a time -/

theorem take_succ_set (l : List Ptr) (k : Nat) (x : Ptr) (hk : k < l.length) :
    (l.set k x).take (k + 1) = l.take k ++ [x] := by
  have hlen : (l.take k ++ [x]).length = k + 1 := by
    simp only [List.length_append, List.length_take, List.length_singleton]; omega
  have hsplit : l.set k x = (l.take k ++ [x]) ++ l.drop (k + 1) := by
    rw [List.set_eq_take_append_cons_drop, if_pos hk]
    simp
  rw [hsplit, List.take_left' hlen]

/-- A call of `nmvect_append` on a vector with a spare slot, under any allocator: the
element is stored at `size`, nothing else moves and the capacity stays. -/
theorem nmvect_append_room (h : Heap) (v : nmvect) (e : Ptr)
    (hblock : v.array.length = v.capacity) (hroom : v.size < v.capacity) :
    ∃ v1, nmvect_append h v e = some (0, v1) ∧
      v1.array.length = v1.capacity ∧ v1.capacity = v.capacity ∧ v1.size = v.size + 1 ∧
      v1.elems = v.elems ++ [e] ∧ v1.destructor = v.destructor ∧ v1.cmp = v.cmp := by
  have hne : ¬ v.size = v.capacity := by omega
  have hin : v.size < v.array.length := by omega
  refine ⟨{ v with array := v.array.set v.size e, size := v.size + 1 }, ?_, ?_, rfl, rfl, ?_,
    rfl, rfl⟩
  · simp [nmvect_append, hne, slot_write, hin]
  · simp only [List.length_set]; exact hblock
  · simp only [nmvect.elems]
    exact take_succ_set v.array v.size e hin

/-- A call of `nmvect_append` when every request is granted: the element is added after the
live ones; a full vector grows to `capacity * 3 / 2 + 1` first. -/
theorem nmvect_append_generous (junk : Ptr) (v : nmvect) (e : Ptr)
    (hblock : v.array.length = v.capacity) (hsize : v.size ≤ v.capacity)
    (hrange : v.size = v.capacity → 3 * v.capacity < 4294967296) :
    ∃ v1, nmvect_append (Heap.generous junk) v e = some (0, v1) ∧
      v1.array.length = v1.capacity ∧ v1.size = v.size + 1 ∧ v1.size ≤ v1.capacity ∧
      v1.elems = v.elems ++ [e] ∧ v1.destructor = v.destructor ∧ v1.cmp = v.cmp ∧
      v1.capacity = (if v.size = v.capacity then v.capacity * 3 / 2 + 1 else v.capacity) := by
  by_cases hfull : v.size = v.capacity
  · have hr := hrange hfull
    have hexp := nmvect_expand_generous junk v hblock hr
    have hroom : (nmvect_expand (Heap.generous junk) v).2.size
        < (nmvect_expand (Heap.generous junk) v).2.capacity := by
      rw [hexp]; simp only; omega
    have hblock1 : (nmvect_expand (Heap.generous junk) v).2.array.length
        = (nmvect_expand (Heap.generous junk) v).2.capacity := by
      rw [hexp]; simp only [List.length_append, List.length_replicate]; omega
    obtain ⟨v1, h1, h2, h3, h4, h5, h6, h7⟩ :=
      nmvect_append_room (Heap.generous junk) _ e hblock1 hroom
    have hne : ¬ (nmvect_expand (Heap.generous junk) v).2.size
        = (nmvect_expand (Heap.generous junk) v).2.capacity := by omega
    have hcode : (nmvect_expand (Heap.generous junk) v).1 = 0 := by rw [hexp]
    have hcall : nmvect_append (Heap.generous junk) v e = some (0, v1) := by
      rw [← h1]
      simp only [nmvect_append, hfull, if_true, hcode, hne, if_false, ne_eq,
        not_true_eq_false]
    have hsz : (nmvect_expand (Heap.generous junk) v).2.size = v.size := by rw [hexp]
    have hcp : (nmvect_expand (Heap.generous junk) v).2.capacity
        = v.capacity * 3 / 2 + 1 := by rw [hexp]
    have hel : (nmvect_expand (Heap.generous junk) v).2.elems = v.elems := by
      rw [hexp]
      simp only [nmvect.elems]
      rw [List.take_append_of_le_length (by omega)]
    have hd : (nmvect_expand (Heap.generous junk) v).2.destructor = v.destructor := by
      rw [hexp]
    have hc : (nmvect_expand (Heap.generous junk) v).2.cmp = v.cmp := by rw [hexp]
    refine ⟨v1, hcall, h2, by omega, by omega, by rw [h5, hel], by rw [h6, hd],
      by rw [h7, hc], ?_⟩
    rw [if_pos hfull, h3, hcp]
  · obtain ⟨v1, h1, h2, h3, h4, h5, h6, h7⟩ :=
      nmvect_append_room (Heap.generous junk) v e hblock (by omega)
    refine ⟨v1, h1, h2, h4, by omega, h5, h6, h7, ?_⟩
    rw [if_neg hfull, h3]

/-! ## The three loops of `nmvect_insert_range` -/

/-- The copy loop into a vector that may have to grow, every request granted: the `n` slots
of `arr` from `i` on are added after the live elements of the destination. -/
theorem nmvect_copy_loop_generous (junk : Ptr) (arr : List Ptr) (n : Nat) :
    ∀ (i : Nat) (dst : nmvect), i + n ≤ arr.length → i + n ≤ 2147483647 →
      dst.array.length = dst.capacity →
      dst.size ≤ dst.capacity → 3 * (dst.size + n) < 4294967296 →
      ∃ dst1, nmvect_copy_loop (Heap.generous junk) n i arr dst = some (some dst1) ∧
        dst1.array.length = dst1.capacity ∧ dst1.size = dst.size + n ∧
        dst1.size ≤ dst1.capacity ∧ dst1.elems = dst.elems ++ (arr.drop i).take n := by
  induction n with
  | zero =>
    intro i dst _ _ hblock hsize _
    exact ⟨dst, by simp [nmvect_copy_loop], hblock, rfl, hsize, by simp⟩
  | succ n ih =>
    intro i dst hlen hint hblock hsize hrange
    have hi : i < arr.length := by omega
    have hnot : ¬ 2147483647 ≤ i := by omega
    have hread : slot_read arr i = some arr[i] := by
      simp [slot_read, List.getElem?_eq_getElem hi]
    obtain ⟨d1, ha, hb1, hs1, hle1, he1, -, -, -⟩ :=
      nmvect_append_generous junk dst arr[i] hblock hsize (by intro hfull; omega)
    obtain ⟨d2, hc, hb2, hs2, hle2, he2⟩ :=
      ih (i + 1) d1 (by omega) (by omega) hb1 hle1 (by omega)
    refine ⟨d2, ?_, hb2, by omega, hle2, ?_⟩
    · rw [nmvect_copy_loop, if_neg (show ¬ 2147483648 ≤ i by omega), hread]
      simp only [ha, ne_eq, not_true_eq_false, if_false, hnot, hc]
    · rw [he2, he1, List.drop_eq_getElem_cons hi, List.take_succ_cons]
      simp

/-- The second loop of `nmvect_insert_range` over slots inside the block: the `n` slots that
follow `pre` receive the source slots `i .. i+n-1`, and `size` rises to cover them. -/
theorem nmvect_insert_range_write_append (index : Nat) (src : List Ptr) (d : Option Nat)
    (c : Option (Ptr → Ptr → Int)) (cap : Nat) (n : Nat) :
    ∀ (i s : Nat) (pre mid post : List Ptr), pre.length = i + index → mid.length = n →
      i + index ≤ s → i + n ≤ src.length → i + n ≤ 2147483647 →
      nmvect_insert_range_write n i index src
          { destructor := d, cmp := c, capacity := cap, size := s,
            array := pre ++ mid ++ post }
        = some { destructor := d, cmp := c, capacity := cap,
                 size := max s (i + index + n),
                 array := pre ++ (src.drop i).take n ++ post } := by
  induction n with
  | zero =>
    intro i s pre mid post _ hmid hs _ _
    have hnil : mid = [] := List.length_eq_zero.mp hmid
    simp [nmvect_insert_range_write, hnil, hs]
  | succ n ih =>
    intro i s pre mid post hpre hmid hs hsrc hint
    cases mid with
    | nil => simp at hmid
    | cons y mid =>
      have hi : i < src.length := by omega
      have hnot : ¬ 2147483647 ≤ i := by omega
      have hread : slot_read src i = some src[i] := by
        simp [slot_read, List.getElem?_eq_getElem hi]
      have hwrite : slot_write (pre ++ (y :: mid) ++ post) (i + index) src[i]
          = some (pre ++ [src[i]] ++ mid ++ post) := by
        have := slot_write_append pre y src[i] (mid ++ post)
        rw [hpre] at this
        simpa using this
      have hstep := ih (i + 1) (if i + index ≥ s then s + 1 else s) (pre ++ [src[i]]) mid post
        (by simp only [List.length_append, List.length_singleton]; omega)
        (by simpa using hmid) (by split <;> omega) (by omega) (by omega)
      have hmax : max (if i + index ≥ s then s + 1 else s) (i + 1 + index + n)
          = max s (i + index + (n + 1)) := by
        split <;> omega
      have htk : (src.drop i).take (n + 1) = src[i] :: (src.drop (i + 1)).take n := by
        rw [List.drop_eq_getElem_cons hi, List.take_succ_cons]
      rw [nmvect_insert_range_write, if_neg hnot, hread]
      by_cases hgrow : i + index ≥ s
      · simp only [hgrow, if_true, hwrite] at hstep ⊢
        rw [hstep, htk]
        simp only [hgrow, if_true] at hmax
        rw [hmax]
        simp
      · simp only [hgrow, if_false, hwrite] at hstep ⊢
        rw [hstep, htk]
        simp only [hgrow, if_false] at hmax
        rw [hmax]
        simp

/-- The third loop of `nmvect_insert_range` on a vector with enough spare slots, under any
allocator: the `n` elements of `moved_data` from `i` on are appended and the capacity does
not change. -/
theorem nmvect_insert_range_restore_room (h : Heap) (moved : nmvect) (n : Nat) :
    ∀ (i : Nat) (v : nmvect), i + n ≤ moved.size → moved.size ≤ moved.array.length →
      i + n ≤ 2147483647 →
      v.array.length = v.capacity → v.size + n ≤ v.capacity →
      ∃ v1, nmvect_insert_range_restore h n i moved v = some v1 ∧
        v1.array.length = v1.capacity ∧ v1.capacity = v.capacity ∧ v1.size = v.size + n ∧
        v1.elems = v.elems ++ (moved.array.drop i).take n ∧
        v1.destructor = v.destructor ∧ v1.cmp = v.cmp := by
  induction n with
  | zero =>
    intro i v _ _ _ hblock _
    exact ⟨v, by simp [nmvect_insert_range_restore], hblock, rfl, rfl, by simp, rfl, rfl⟩
  | succ n ih =>
    intro i v hi hmoved hint hblock hroom
    have hlt : i < moved.array.length := by omega
    have hnotint : ¬ 2147483647 ≤ i := by omega
    have hnot : ¬ i ≥ moved.size := by omega
    have hget : nmvect_get moved i = some moved.array[i] := by
      simp [nmvect_get, hnot, slot_read, List.getElem?_eq_getElem hlt]
    obtain ⟨w, ha, hb1, hc1, hs1, he1, hd1, hm1⟩ :=
      nmvect_append_room h v moved.array[i] hblock (by omega)
    obtain ⟨v1, hr, hb2, hc2, hs2, he2, hd2, hm2⟩ :=
      ih (i + 1) w (by omega) hmoved (by omega) hb1 (by omega)
    refine ⟨v1, ?_, hb2, by omega, by omega, ?_, by rw [hd2, hd1], by rw [hm2, hm1]⟩
    · rw [nmvect_insert_range_restore, if_neg hnotint, hget]
      simp only [ha, hr]
    · rw [he2, he1, List.drop_eq_getElem_cons hlt, List.take_succ_cons]
      simp

/-! ## The whole of `nmvect_insert_range` -/

/-- The capacity adjustment made by `nmvect_insert_range`, every request granted: `modif` is
`capacity + k`, so the block grows to `2 * capacity + k` slots. -/
theorem nmvect_modcap_grow (junk : Ptr) (v : nmvect) (k : Nat)
    (hblock : v.array.length = v.capacity) (hcap : 1 ≤ v.capacity)
    (hrange : 3 * (v.capacity + k) < 4294967296) :
    nmvect_modcap (Heap.generous junk) v (i32 (v.capacity + k))
      = (0, { v with array := v.array ++ List.replicate (v.capacity + k) junk,
                     capacity := 2 * v.capacity + k }) := by
  have hi : i32 (v.capacity + k) = ((v.capacity + k : Nat) : Int) := i32_small _ (by omega)
  have hu : u32 ((v.capacity : Int) + ((v.capacity + k : Nat) : Int)) = 2 * v.capacity + k := by
    unfold u32; omega
  have hlt : ¬ 2 * v.capacity + k < 1 := by omega
  have hne : ¬ (((v.capacity + k : Nat) : Int) = 0) := by omega
  have hle : v.array.length ≤ 2 * v.capacity + k := by omega
  have hcount : 2 * v.capacity + k - v.array.length = v.capacity + k := by omega
  simp only [nmvect_modcap, hi, hu, hlt, if_false, hne, realloc_generous,
    List.take_of_length_le hle, hcount]

theorem drop_take_max (l extra : List Ptr) (s t : Nat) (hs : s ≤ l.length) :
    ((l ++ extra).drop t).take (max s t - t) = (l.take s).drop t := by
  rw [List.take_drop]
  by_cases hst : t ≤ s
  · have h1 : t + (max s t - t) = s := by omega
    rw [h1, List.take_append_of_le_length hs]
  · have h1 : t + (max s t - t) = t := by omega
    rw [h1, List.drop_eq_nil_of_le (by simp only [List.length_take]; omega),
      List.drop_eq_nil_of_le (by simp only [List.length_take]; omega)]

/-- The value of `nmvect_insert_range` when every request is granted, on a vector of
capacity `≥ 1` whose block holds `capacity ≥ size` slots: the block of `addvect` is written
over the slots from `index` on, then the whole old tail `[index, size)` is appended; the
capacity is adjusted once, to `2 * capacity + size(addvect)`. -/
theorem nmvect_insert_range_generous (junk : Ptr) (v a : nmvect) (index : Nat)
    (hblock : v.array.length = v.capacity) (hsize : v.size ≤ v.capacity)
    (hcap : 1 ≤ v.capacity) (hablock : a.size ≤ a.array.length)
    (hrange : 3 * (v.capacity + a.size) < 4294967296) (hidx : index ≤ v.size) :
    ∃ v3, nmvect_insert_range (Heap.generous junk) v index a = some (0, v3) ∧
      v3.elems = v.elems.take index ++ a.elems ++ v.elems.drop (index + a.size)
        ++ v.elems.drop index ∧
      v3.size = max v.size (index + a.size) + (v.size - index) ∧
      v3.capacity = 2 * v.capacity + a.size ∧ v3.array.length = v3.capacity ∧
      v3.destructor = v.destructor ∧ v3.cmp = v.cmp := by
  have hmod := nmvect_modcap_grow junk v a.size hblock hcap hrange
  have hlenM : (v.array ++ List.replicate (v.capacity + a.size) junk).length
      = 2 * v.capacity + a.size := by
    simp only [List.length_append, List.length_replicate]; omega
  obtain ⟨moved, hcopy, hmb, hms, hmle, hme⟩ := nmvect_copy_loop_generous junk
    (v.array ++ List.replicate (v.capacity + a.size) junk) (v.size - index) index
    { destructor := v.destructor, cmp := none, capacity := a.size, size := 0,
      array := List.replicate a.size 0 }
    (by rw [hlenM]; omega) (by omega) (by simp) (by simp) (by simp only; omega)
  simp only [Nat.zero_add] at hms
  have hmelems : moved.elems = v.elems.drop index := by
    rw [hme]
    simp only [nmvect.elems, List.take_zero, List.nil_append]
    rw [List.drop_take, List.drop_append_of_le_length (by omega),
      List.take_append_of_le_length (by simp only [List.length_drop]; omega)]
  have hprelen : ((v.array ++ List.replicate (v.capacity + a.size) junk).take index).length
      = 0 + index := by
    rw [List.length_take, hlenM]; omega
  have hmidlen : (((v.array ++ List.replicate (v.capacity + a.size) junk).drop index).take
      (index + a.size - index)).length = a.size := by
    rw [List.length_take, List.length_drop, hlenM]; omega
  have hwrite := nmvect_insert_range_write_append index a.array v.destructor v.cmp
    (2 * v.capacity + a.size) a.size 0 v.size
    ((v.array ++ List.replicate (v.capacity + a.size) junk).take index)
    (((v.array ++ List.replicate (v.capacity + a.size) junk).drop index).take
      (index + a.size - index))
    ((v.array ++ List.replicate (v.capacity + a.size) junk).drop (index + a.size))
    hprelen hmidlen (by omega) (by omega) (by omega)
  rw [split_three _ index (index + a.size) (by omega), List.drop_zero, Nat.zero_add] at hwrite
  have hpre : (v.array ++ List.replicate (v.capacity + a.size) junk).take index
      = v.array.take index := List.take_append_of_le_length (by omega)
  have hlen2 : (v.array.take index ++ a.array.take a.size
      ++ (v.array ++ List.replicate (v.capacity + a.size) junk).drop (index + a.size)).length
      = 2 * v.capacity + a.size := by
    simp only [List.length_append, List.length_take, List.length_drop,
      List.length_replicate]
    omega
  rw [hpre] at hwrite
  obtain ⟨v3, hres, hb3, hc3, hs3, he3, hd3, hm3⟩ := nmvect_insert_range_restore_room
    (Heap.generous junk) moved moved.size 0
    { destructor := v.destructor, cmp := v.cmp, capacity := 2 * v.capacity + a.size,
      size := max v.size (index + a.size),
      array := v.array.take index ++ a.array.take a.size
        ++ (v.array ++ List.replicate (v.capacity + a.size) junk).drop (index + a.size) }
    (by omega) (by omega) (by omega) hlen2 (by simp only; omega)
  have hcall : nmvect_insert_range (Heap.generous junk) v index a = some (0, v3) := by
    have hnot : ¬ index > v.size := by omega
    simp only [nmvect_insert_range, hnot, if_false, hmod, ne_eq, not_true_eq_false,
      nmvect_alloc_generous, hcopy, hwrite, hres]
  have hv2 : nmvect.elems
      { destructor := v.destructor, cmp := v.cmp,
        capacity := 2 * v.capacity + a.size, size := max v.size (index + a.size),
        array := v.array.take index ++ a.array.take a.size
          ++ (v.array ++ List.replicate (v.capacity + a.size) junk).drop (index + a.size) }
      = v.elems.take index ++ a.elems ++ v.elems.drop (index + a.size) := by
    have hl1 : (v.array.take index ++ a.array.take a.size).length = index + a.size := by
      simp only [List.length_append, List.length_take]; omega
    have hcount : max v.size (index + a.size)
        = (v.array.take index ++ a.array.take a.size).length
          + (max v.size (index + a.size) - (index + a.size)) := by
      rw [hl1]; omega
    simp only [nmvect.elems]
    rw [hcount, List.take_append, drop_take_max v.array _ v.size (index + a.size) (by omega),
      List.take_take, Nat.min_eq_left (by omega)]
  refine ⟨v3, hcall, ?_, by rw [hs3, hms], hc3, hb3, hd3, hm3⟩
  have hmall : (moved.array.drop 0).take moved.size = moved.elems := by
    simp [nmvect.elems]
  rw [he3, hv2, hmall, hmelems]

/-- C29, amended: exact post-state of `nmvect_insert_range`.  For a vector with capacity
`c ≥ 1` (its block holding `c ≥ size` slots), an independent `addvect` (its live slots lying
in its block) with `3 * (c + |a|) < 2 ^ 32` and `index ≤ size`, every request granted, the
call returns
`0`; the elements become `take index v ++ a ++ drop (index + |a|) v ++ drop index v`, the
size `max |v| (index + |a|) + (|v| - index)` and the capacity exactly `2 * c + |a|`.  Hence
the result is the splice `take index v ++ a ++ drop index v` exactly when
`|v| ≤ index + |a|` or `|v| = index`. -/
theorem nmvect_insert_range_post_state (junk : Ptr) (v a : nmvect) (index : Nat)
    (hblock : v.array.length = v.capacity) (hsize : v.size ≤ v.capacity)
    (hcap : 1 ≤ v.capacity) (hablock : a.size ≤ a.array.length)
    (hrange : 3 * (v.capacity + a.size) < 4294967296) (hidx : index ≤ v.size) :
    ∃ v3, nmvect_insert_range (Heap.generous junk) v index a = some (0, v3) ∧
      v3.elems = v.elems.take index ++ a.elems ++ v.elems.drop (index + a.size)
        ++ v.elems.drop index ∧
      v3.size = max v.size (index + a.size) + (v.size - index) ∧
      v3.capacity = 2 * v.capacity + a.size ∧
      (v3.elems = v.elems.take index ++ a.elems ++ v.elems.drop index
        ↔ (v.size ≤ index + a.size ∨ v.size = index)) := by
  obtain ⟨v3, hcall, helems, hs, hc, -, -, -⟩ :=
    nmvect_insert_range_generous junk v a index hblock hsize hcap hablock hrange hidx
  have hl : v.elems.length = v.size := by
    simp only [nmvect.elems, List.length_take]; omega
  refine ⟨v3, hcall, helems, hs, hc, ?_⟩
  rw [helems]
  constructor
  · intro heq
    have hlen := congrArg List.length heq
    simp only [List.length_append, List.length_take, List.length_drop, hl] at hlen
    omega
  · intro hcase
    have hnil : v.elems.drop (index + a.size) = [] :=
      List.drop_eq_nil_of_le (by rw [hl]; omega)
    rw [hnil, List.append_nil]

/-- C29 on `[1, 2, 3, 4]` (capacity `4`), `[8, 9]`, `index = 1`: seven elements
`[1, 8, 9, 4, 2, 3, 4]`, capacity `2 * 4 + 2 = 10`. -/
theorem nmvect_insert_range_post_state_witness :
    ∃ v3, nmvect_insert_range (Heap.generous 0)
        { destructor := none, cmp := none, capacity := 4, size := 4, array := [1, 2, 3, 4] } 1
        { destructor := none, cmp := none, capacity := 2, size := 2, array := [8, 9] }
        = some (0, v3) ∧
      v3.elems = [1, 8, 9, 4, 2, 3, 4] ∧ v3.size = 7 ∧ v3.capacity = 10 := by
  obtain ⟨v3, h1, h2, h3, h4, -⟩ := nmvect_insert_range_post_state 0
    { destructor := none, cmp := none, capacity := 4, size := 4, array := [1, 2, 3, 4] }
    { destructor := none, cmp := none, capacity := 2, size := 2, array := [8, 9] } 1
    (by decide) (by decide) (by decide) (by decide) (by decide) (by decide)
  exact ⟨v3, h1, h2, h3, h4⟩

/-- C21, amended: for a vector with capacity `≥ 1` (its block holding `capacity ≥ size`
slots), any vector `other` (its live slots lying in its block) with
`3 * (capacity + size(other)) < 2 ^ 32` and any value of the unused `index` argument, every
request granted, `nmvect_append_range` returns `0` and leaves the original elements followed by those of
`other`, in order, the size increased by `size(other)`.  The call only reads `other`: the
embedding takes it as a value and produces no new state for it. -/
theorem nmvect_append_range_appends (junk : Ptr) (v other : nmvect) (index : Nat)
    (hblock : v.array.length = v.capacity) (hsize : v.size ≤ v.capacity)
    (hcap : 1 ≤ v.capacity) (hoblock : other.size ≤ other.array.length)
    (hrange : 3 * (v.capacity + other.size) < 4294967296) :
    ∃ v1, nmvect_append_range (Heap.generous junk) v index other = some (0, v1) ∧
      nmvect_append_range (Heap.generous junk) v index other
        = nmvect_insert_range (Heap.generous junk) v v.size other ∧
      v1.elems = v.elems ++ other.elems ∧ v1.size = v.size + other.size := by
  obtain ⟨v3, hcall, helems, hs, -, -, -, -⟩ :=
    nmvect_insert_range_generous junk v other v.size hblock hsize hcap hoblock hrange
      (Nat.le_refl _)
  have hl : v.elems.length = v.size := by
    simp only [nmvect.elems, List.length_take]; omega
  refine ⟨v3, hcall, rfl, ?_, by omega⟩
  rw [helems, List.take_of_length_le (by omega), List.drop_eq_nil_of_le (by omega),
    List.drop_eq_nil_of_le (by omega)]
  simp

/-- C21 on `[1, 2]` (capacity `3`) and `[8, 9]`, with `7` as the unused index. -/
theorem nmvect_append_range_appends_witness :
    ∃ v1, nmvect_append_range (Heap.generous 0)
        { destructor := none, cmp := none, capacity := 3, size := 2, array := [1, 2, 0] } 7
        { destructor := none, cmp := none, capacity := 2, size := 2, array := [8, 9] }
        = some (0, v1) ∧
      v1.elems = [1, 2, 8, 9] ∧ v1.size = 4 := by
  obtain ⟨v1, h1, -, h3, h4⟩ := nmvect_append_range_appends 0
    { destructor := none, cmp := none, capacity := 3, size := 2, array := [1, 2, 0] }
    { destructor := none, cmp := none, capacity := 2, size := 2, array := [8, 9] } 7
    (by decide) (by decide) (by decide) (by decide) (by decide)
  exact ⟨v1, h1, h3, h4⟩

/-! ## Capacity across the single-element and range operations -/

/-- The outcome of `nmvect_remove` in range, under any allocator, as far as size and capacity
go: the size drops by one; the capacity becomes the pre-removal size when the trigger
`size == capacity * 2 / 3 + 1` fires and the reallocation is granted, and stays otherwise. -/
theorem nmvect_remove_capacity (h : Heap) (v : nmvect) (index : Nat)
    (hblock : v.array.length = v.capacity) (hsize : v.size ≤ v.capacity)
    (hint : v.size ≤ 2147483648) (hidx : index < v.size) :
    ∃ data v1, nmvect_remove h v index = some (data, v1, []) ∧
      v1.size = v.size - 1 ∧ v1.array.length = v1.capacity ∧
      v1.capacity = (if v.size = v.capacity * 2 % 4294967296 / 3 + 1 ∧ h.grants v.size = true
        then v.size else v.capacity) := by
  obtain ⟨hs1, hroom, -, hb1, -, -, hcap⟩ := nmvect_remove_room h v hblock hsize _ rfl
  generalize hv1 : (if v.size = v.capacity * 2 % 4294967296 / 3 + 1
    then (nmvect_contract h v).2 else v) = w at hs1 hroom hb1 hcap
  have hiw : index < w.array.length := by omega
  have hpre : (w.array.take index).length = index := by
    rw [List.length_take]; omega
  have hsplit : w.array = w.array.take index ++ w.array[index] :: w.array.drop (index + 1) := by
    rw [← List.drop_eq_getElem_cons hiw, List.take_append_drop]
  have hrest : w.size - 1 - index ≤ (w.array.drop (index + 1)).length := by
    rw [List.length_drop]; omega
  have hloop := nmvect_remove_loop_append (w.size - 1 - index) (w.array.take index)
    w.array[index] (w.array.drop (index + 1)) hrest (by rw [hpre]; omega)
  rw [hpre, ← hsplit] at hloop
  have hread : slot_read w.array index = some w.array[index] := by
    simp [slot_read, List.getElem?_eq_getElem hiw]
  have hnot : ¬ index ≥ v.size := by omega
  refine ⟨w.array[index],
    { w with
      array := w.array.take index ++ (w.array.drop (index + 1)).take (w.size - 1 - index)
        ++ (w.array[index] :: w.array.drop (index + 1)).drop (w.size - 1 - index),
      size := w.size - 1 }, ?_, ?_, ?_, hcap⟩
  · simp only [nmvect_remove, hnot, if_false, hv1, hread, hloop]
  · simp only [hs1]
  · simp only [List.length_append, List.length_take, List.length_drop, List.length_cons]
    omega

/-- C27, amended: for a vector with capacity `c` (its block holding `c ≥ size` slots,
`2 * c < 2 ^ 32`) and `index < size`, if the size before
`nmvect_remove` equals `c * 2 / 3 + 1` then, the reallocation being granted, the capacity
after the call is `c * 2 / 3 + 1`; if the size before the call is anything else the capacity
is unchanged. -/
theorem nmvect_remove_contraction_trigger (h : Heap) (v : nmvect) (index : Nat)
    (hblock : v.array.length = v.capacity) (hsize : v.size ≤ v.capacity)
    (hrange : 2 * v.capacity < 4294967296) (hidx : index < v.size) :
    ∃ data v1, nmvect_remove h v index = some (data, v1, []) ∧
      v1.size = v.size - 1 ∧
      (v.size = v.capacity * 2 / 3 + 1 → h.grants v.size = true →
        v1.capacity = v.capacity * 2 / 3 + 1) ∧
      (v.size ≠ v.capacity * 2 / 3 + 1 → v1.capacity = v.capacity) := by
  obtain ⟨data, v1, hcall, hs, -, hcap⟩ := nmvect_remove_capacity h v index hblock hsize (by omega) hidx
  have hmod : v.capacity * 2 % 4294967296 = v.capacity * 2 := Nat.mod_eq_of_lt (by omega)
  rw [hmod] at hcap
  refine ⟨data, v1, hcall, hs, ?_, ?_⟩
  · intro htrig hg
    rw [hcap, if_pos ⟨htrig, hg⟩, htrig]
  · intro hne
    rw [hcap, if_neg (fun hboth => hne hboth.1)]

/-- C27, amended, on a vector of capacity `5` holding `[1, 2, 3, 4]`: the size before the
call is `4 = 5 * 2 / 3 + 1`, and the capacity after it is `4`. -/
theorem nmvect_remove_contraction_trigger_witness :
    ∃ data v1, nmvect_remove (Heap.generous 0)
        { destructor := none, cmp := none, capacity := 5, size := 4,
          array := [1, 2, 3, 4, 0] } 0 = some (data, v1, []) ∧
      v1.size = 3 ∧ v1.capacity = 4 := by
  obtain ⟨data, v1, h1, h2, h3, -⟩ := nmvect_remove_contraction_trigger (Heap.generous 0)
    { destructor := none, cmp := none, capacity := 5, size := 4, array := [1, 2, 3, 4, 0] } 0
    (by decide) (by decide) (by decide) (by decide)
  exact ⟨data, v1, h1, h2, h3 (by decide) rfl⟩

theorem nmvect_modcap_failed (h : Heap) (v : nmvect) (modif : Int)
    (hfail : (nmvect_modcap h v modif).1 ≠ 0) : (nmvect_modcap h v modif).2 = v := by
  by_cases h1 : u32 ((v.capacity : Int) + modif) < 1
  · simp [nmvect_modcap, h1]
  · by_cases h2 : modif = 0
    · simp only [nmvect_modcap, h2]
      split <;> rfl
    · cases hre : realloc h v.array (u32 ((v.capacity : Int) + modif)) with
      | none => simp [nmvect_modcap, h1, h2, hre]
      | some arr => simp [nmvect_modcap, h1, h2, hre] at hfail

/-- Whenever `nmvect_insert_range` returns `-1`: the index is bad and the vector is the one
received; or the capacity adjustment failed and the vector is the one received; or the
adjustment succeeded, a later allocation for the holder failed, and the vector is the one
the adjustment produced. -/
theorem nmvect_insert_range_failed (h : Heap) (v a v1 : nmvect) (index : Nat)
    (hres : nmvect_insert_range h v index a = some (-1, v1)) :
    (index > v.size ∧ v1 = v) ∨
    (index ≤ v.size ∧ (nmvect_modcap h v (i32 (v.capacity + a.size))).1 ≠ 0 ∧ v1 = v) ∨
    (index ≤ v.size ∧ (nmvect_modcap h v (i32 (v.capacity + a.size))).1 = 0 ∧
      v1 = (nmvect_modcap h v (i32 (v.capacity + a.size))).2) := by
  unfold nmvect_insert_range at hres
  by_cases hidx : index > v.size
  · simp only [hidx, if_true, Option.some.injEq, Prod.mk.injEq, true_and] at hres
    exact Or.inl ⟨hidx, hres.symm⟩
  · simp only [hidx, if_false] at hres
    by_cases hm : (nmvect_modcap h v (i32 (v.capacity + a.size))).1 ≠ 0
    · rw [if_pos hm] at hres
      simp only [Option.some.injEq, Prod.mk.injEq, true_and] at hres
      exact Or.inr (Or.inl ⟨by omega, hm, by rw [← hres, nmvect_modcap_failed h v _ hm]⟩)
    · have hm0 : (nmvect_modcap h v (i32 (v.capacity + a.size))).1 = 0 := by
        simpa using hm
      rw [if_neg hm] at hres
      refine Or.inr (Or.inr ⟨by omega, hm0, ?_⟩)
      split at hres
      · simp only [Option.some.injEq, Prod.mk.injEq, true_and] at hres
        exact hres.symm
      · split at hres
        · simp at hres
        · simp only [Option.some.injEq, Prod.mk.injEq, true_and] at hres
          exact hres.symm
        · split at hres
          · simp at hres
          · split at hres
            · simp at hres
            · simp at hres

/-- The capacity adjustment of `nmvect_insert_range` under any allocator, without wrap: it
succeeds exactly when `2 * capacity + k` is at least `1` and the request for that many slots
is granted, and then only the capacity and the spare slots change. -/
theorem nmvect_modcap_outcome (h : Heap) (v : nmvect) (k : Nat)
    (hblock : v.array.length = v.capacity) (hsize : v.size ≤ v.capacity)
    (hrange : 3 * (v.capacity + k) < 4294967296) :
    ((nmvect_modcap h v (i32 (v.capacity + k))).1 = 0
      ↔ (1 ≤ 2 * v.capacity + k ∧ h.grants (2 * v.capacity + k) = true)) ∧
    ((nmvect_modcap h v (i32 (v.capacity + k))).1 = 0 →
      (nmvect_modcap h v (i32 (v.capacity + k))).2.size = v.size ∧
      (nmvect_modcap h v (i32 (v.capacity + k))).2.capacity = 2 * v.capacity + k ∧
      (nmvect_modcap h v (i32 (v.capacity + k))).2.elems = v.elems ∧
      (nmvect_modcap h v (i32 (v.capacity + k))).2.destructor = v.destructor ∧
      (nmvect_modcap h v (i32 (v.capacity + k))).2.cmp = v.cmp) := by
  have hi : i32 (v.capacity + k) = ((v.capacity + k : Nat) : Int) := i32_small _ (by omega)
  have hu : u32 ((v.capacity : Int) + ((v.capacity + k : Nat) : Int)) = 2 * v.capacity + k := by
    unfold u32; omega
  rw [hi]
  have hminus : ∀ w : nmvect, ¬ ((-1 : Int), w).1 = 0 := fun w => by
    show ¬ (-1 : Int) = 0
    decide
  by_cases h1 : 2 * v.capacity + k < 1
  · have hcall : nmvect_modcap h v ((v.capacity + k : Nat) : Int) = (-1, v) := by
      simp only [nmvect_modcap, hu, h1, if_true]
    rw [hcall]
    refine ⟨⟨fun hz => absurd hz (hminus v), fun hc => absurd hc.1 (by omega)⟩,
      fun hz => absurd hz (hminus v)⟩
  · have h2 : ¬ (((v.capacity + k : Nat) : Int) = 0) := by omega
    by_cases hg : h.grants (2 * v.capacity + k) = true
    · have hle : v.array.length ≤ 2 * v.capacity + k := by omega
      have hcall : nmvect_modcap h v ((v.capacity + k : Nat) : Int)
          = (0, { v with
              array := v.array ++ List.replicate (2 * v.capacity + k - v.array.length) h.junk,
              capacity := 2 * v.capacity + k }) := by
        simp only [nmvect_modcap, hu, h1, if_false, h2, realloc, hg, if_true,
          List.take_of_length_le hle]
      rw [hcall]
      refine ⟨⟨fun _ => ⟨by omega, hg⟩, fun _ => rfl⟩, fun _ => ⟨rfl, rfl, ?_, rfl, rfl⟩⟩
      simp only [nmvect.elems]
      rw [List.take_append_of_le_length (by omega)]
    · have hg1 : h.grants (2 * v.capacity + k) = false := by simpa using hg
      have hcall : nmvect_modcap h v ((v.capacity + k : Nat) : Int) = (-1, v) := by
        simp only [nmvect_modcap, hu, h1, if_false, h2, realloc, hg1, Bool.false_eq_true]
      rw [hcall]
      refine ⟨⟨fun hz => absurd hz (hminus v), fun hc => absurd hc.2 hg⟩,
        fun hz => absurd hz (hminus v)⟩

/-- C28, amended: whenever `nmvect_insert_range` returns `-1` on a vector whose block holds
`c = capacity ≥ size` slots, with `3 * (c + |addvect|) < 2 ^ 32`, the size and the elements
of `vect` are exactly what they were.  The vector is unchanged, capacity included, when the
index is bad (`index > size`) or the capacity adjustment fails (the request for
`2 * c + |addvect|` slots is refused, or `2 * c + |addvect|` is `0`); in every other case
(the failure is a later allocation for the temporary holder) the capacity is the adjusted
`2 * c + |addvect|`. -/
theorem nmvect_insert_range_failure_state (h : Heap) (v a v1 : nmvect) (index : Nat)
    (hblock : v.array.length = v.capacity) (hsize : v.size ≤ v.capacity)
    (hrange : 3 * (v.capacity + a.size) < 4294967296)
    (hres : nmvect_insert_range h v index a = some (-1, v1)) :
    v1.size = v.size ∧ v1.elems = v.elems ∧
    v1.destructor = v.destructor ∧ v1.cmp = v.cmp ∧
    ((index > v.size ∨ h.grants (2 * v.capacity + a.size) = false ∨
        2 * v.capacity + a.size = 0) → v1 = v) ∧
    (index ≤ v.size → h.grants (2 * v.capacity + a.size) = true →
      1 ≤ 2 * v.capacity + a.size → v1.capacity = 2 * v.capacity + a.size) := by
  obtain ⟨hiff, hstate⟩ := nmvect_modcap_outcome h v a.size hblock hsize hrange
  rcases nmvect_insert_range_failed h v a v1 index hres with
    ⟨hbad, hsame⟩ | ⟨_, hfail, hsame⟩ | ⟨hidx, hok, hv1⟩
  · subst hsame
    exact ⟨rfl, rfl, rfl, rfl, fun _ => rfl, fun hin => absurd hin (by omega)⟩
  · subst hsame
    refine ⟨rfl, rfl, rfl, rfl, fun _ => rfl, fun _ hg hpos => ?_⟩
    exact absurd (hiff.mpr ⟨hpos, hg⟩) hfail
  · obtain ⟨h1, h2, h3, h4, h5⟩ := hstate hok
    obtain ⟨hpos, hg⟩ := hiff.mp hok
    rw [← hv1] at h1 h2 h3 h4 h5
    refine ⟨h1, h3, h4, h5, ?_, fun _ _ _ => h2⟩
    rintro (hbad | hrefused | hzero)
    · omega
    · rw [hg] at hrefused
      exact absurd hrefused (by decide)
    · omega

/-- C28, amended, on `[1, 2]` (capacity `2`) with `[8]` at index `1`, the allocator granting
slot blocks but no header: the call returns `-1`, size and elements are kept, the capacity
is `2 * 2 + 1 = 5`. -/
theorem nmvect_insert_range_failure_state_witness :
    ∃ v1, nmvect_insert_range { header := false, grants := fun _ => true, junk := 0 }
        { destructor := none, cmp := none, capacity := 2, size := 2, array := [1, 2] } 1
        { destructor := none, cmp := none, capacity := 1, size := 1, array := [8] }
        = some (-1, v1) ∧
      v1.size = 2 ∧ v1.elems = [1, 2] ∧ v1.capacity = 5 := by
  have hres : nmvect_insert_range { header := false, grants := fun _ => true, junk := 0 }
      { destructor := none, cmp := none, capacity := 2, size := 2, array := [1, 2] } 1
      { destructor := none, cmp := none, capacity := 1, size := 1, array := [8] }
      = some (-1, { destructor := none, cmp := none, capacity := 5, size := 2,
                    array := [1, 2, 0, 0, 0] }) := rfl
  obtain ⟨h1, h2, -, -, -, h6⟩ := nmvect_insert_range_failure_state
    { header := false, grants := fun _ => true, junk := 0 }
    { destructor := none, cmp := none, capacity := 2, size := 2, array := [1, 2] }
    { destructor := none, cmp := none, capacity := 1, size := 1, array := [8] }
    { destructor := none, cmp := none, capacity := 5, size := 2, array := [1, 2, 0, 0, 0] }
    1 (by decide) (by decide) (by decide) hres
  exact ⟨_, hres, h1, h2, h6 (by decide) rfl (by decide)⟩

/-! ## The queue -/

theorem queue_nodes_length (xs : List Ptr) (j : Nat) : (queue_nodes xs j).length = xs.length := by
  simp [queue_nodes]

theorem queue_nodes_getElem? (xs : List Ptr) (j k : Nat) (hk : k < xs.length) :
    (queue_nodes xs j)[k]?
      = some (if k < j then none
          else some { data := xs.getD k 0,
                      next := if k + 1 < xs.length then some (k + 1) else none }) := by
  simp [queue_nodes, List.getElem?_map, List.getElem?_range hk]

theorem node_read_queue_nodes (xs : List Ptr) (j k : Nat) (hk : k < xs.length) (hj : j ≤ k) :
    node_read (queue_nodes xs j) k
      = some { data := xs.getD k 0,
               next := if k + 1 < xs.length then some (k + 1) else none } := by
  have hnot : ¬ k < j := by omega
  simp [node_read, queue_nodes_getElem? xs j k hk, hnot]

/-- Linking a node for `x` behind the last node of the queue store for `xs`. -/
theorem queue_nodes_snoc (xs : List Ptr) (x : Ptr) (hn : 0 < xs.length) :
    (queue_nodes xs 0).set (xs.length - 1)
        (some { data := xs.getD (xs.length - 1) 0, next := some xs.length })
        ++ [some { data := x, next := none }]
      = queue_nodes (xs ++ [x]) 0 := by
  apply List.ext_getElem?
  intro k
  have hlen : (xs ++ [x]).length = xs.length + 1 := by simp
  by_cases hk : k < xs.length
  · rw [List.getElem?_append_left (by simp [queue_nodes_length]; omega), List.getElem?_set,
      queue_nodes_getElem? (xs ++ [x]) 0 k (by omega)]
    have hget : (xs ++ [x])[k]? = xs[k]? := List.getElem?_append_left hk
    by_cases hkl : xs.length - 1 = k
    · subst hkl
      have h1 : xs.length - 1 + 1 = xs.length := by omega
      simp [queue_nodes_length, hn, hget, hlen, h1, List.getElem?_eq_getElem hk]
    · rw [if_neg hkl, queue_nodes_getElem? xs 0 k hk]
      have h1 : k + 1 < xs.length := by omega
      have h2 : k + 1 < xs.length + 1 := by omega
      simp [hget, hlen, h1, h2]
  · by_cases hk2 : k = xs.length
    · subst hk2
      rw [List.getElem?_append_right (by simp [queue_nodes_length]),
        queue_nodes_getElem? (xs ++ [x]) 0 xs.length (by omega)]
      have hget : (xs ++ [x]).getD xs.length 0 = x := by
        simp [List.getD_eq_getElem?_getD]
      simp [queue_nodes_length, hget, hlen]
    · rw [List.getElem?_eq_none (by simp [queue_nodes_length]; omega),
        List.getElem?_eq_none (by simp [queue_nodes_length]; omega)]

/-- Releasing the head node of the queue store. -/
theorem queue_nodes_release (xs : List Ptr) (j : Nat) (hj : j < xs.length) :
    (queue_nodes xs j).set j none = queue_nodes xs (j + 1) := by
  apply List.ext_getElem?
  intro k
  by_cases hk : k < xs.length
  · rw [List.getElem?_set, queue_nodes_getElem? xs (j + 1) k hk]
    by_cases hjk : j = k
    · subst hjk
      simp [queue_nodes_length, hj]
    · rw [if_neg hjk, queue_nodes_getElem? xs j k hk]
      by_cases hlt : k < j
      · have h1 : k < j + 1 := by omega
        simp [hlt, h1]
      · have h1 : ¬ k < j + 1 := by omega
        simp [hlt, h1]
  · rw [List.getElem?_eq_none (by simp [queue_nodes_length]; omega),
      List.getElem?_eq_none (by simp [queue_nodes_length]; omega)]

/-- One `nmqueue_enqueue` on the queue that holds `xs`, the node being granted. -/
theorem nmqueue_enqueue_state (junk : Ptr) (d : Option Nat) (xs : List Ptr) (x : Ptr) :
    nmqueue_enqueue (Heap.generous junk) (queue_state d xs 0) x
      = some (0, queue_state d (xs ++ [x]) 0) := by
  by_cases hn : 0 < xs.length
  · have hread := node_read_queue_nodes xs 0 (xs.length - 1) (by omega) (by omega)
    have hlast : ¬ xs.length - 1 + 1 < xs.length := by omega
    simp only [hlast, if_false] at hread
    have hheader : (Heap.generous junk).header = true := rfl
    have hlen : (xs ++ [x]).length = xs.length + 1 := by simp
    have hwrap : (xs.length % 4294967296 + 1) % 4294967296 = (xs.length + 1) % 4294967296 := by
      omega
    simp only [nmqueue_enqueue, nmlist_insert_next, nmlist_tail, queue_state, hheader, if_true,
      hn, hread, queue_nodes_length, queue_nodes_snoc xs x hn, hlen, Nat.sub_zero,
      Nat.add_sub_cancel, Nat.zero_lt_succ, hwrap]
  · have hnil : xs = [] := List.length_eq_zero.mp (by omega)
    subst hnil
    rfl

/-- One `nmqueue_peek` and one `nmqueue_dequeue` on the queue that holds `xs` (fewer than
`2 ^ 32` data, so that `size` is their number) with `j` elements already taken. -/
theorem nmqueue_dequeue_state (d : Option Nat) (xs : List Ptr) (j : Nat) (hj : j < xs.length)
    (hfew : xs.length < 4294967296) :
    nmqueue_peek (queue_state d xs j) = some (xs.getD j 0) ∧
    nmqueue_dequeue (queue_state d xs j) = some (xs.getD j 0, queue_state d xs (j + 1)) := by
  have hread := node_read_queue_nodes xs j j hj (Nat.le_refl _)
  have hsize : ¬ xs.length - j = 0 := by omega
  have hmod : ∀ k, (xs.length - k) % 4294967296 = xs.length - k :=
    fun k => Nat.mod_eq_of_lt (by omega)
  constructor
  · simp only [nmqueue_peek, nmlist_get_data, nmlist_head, queue_state, hj, if_true, hread]
  · simp only [nmqueue_dequeue, nmlist_remove_next, queue_state, hmod, hsize, if_false, hj,
      if_true, hread, queue_nodes_release xs j hj]
    by_cases hnext : j + 1 < xs.length
    · have h1 : ¬ xs.length - j = 1 := by omega
      have h2 : xs.length - j - 1 = xs.length - (j + 1) := by omega
      simp only [hnext, if_true, h1, if_false, h2]
    · have h1 : xs.length - j = 1 := by omega
      have h2 : xs.length - (j + 1) = 0 := by omega
      simp only [hnext, if_false, h1, if_true, h2, Nat.sub_self]

/-- Enqueuing the data `ys`, in order, on the queue that holds `xs`. -/
theorem enqueue_all_state (junk : Ptr) (d : Option Nat) (ys : List Ptr) :
    ∀ xs : List Ptr, enqueue_all (Heap.generous junk) ys (queue_state d xs 0)
      = some (List.replicate ys.length 0, queue_state d (xs ++ ys) 0) := by
  induction ys with
  | nil => intro xs; simp [enqueue_all]
  | cons y ys ih =>
    intro xs
    have hstep := ih (xs ++ [y])
    rw [List.append_assoc, List.singleton_append] at hstep
    simp only [enqueue_all, nmqueue_enqueue_state, hstep, List.length_cons,
      List.replicate_succ]

/-- Peeking and dequeuing `n` times on the queue that holds `xs` with `j` elements already
taken: each peek shows what the dequeue then returns, the next `n` data in order. -/
theorem dequeue_times_state (d : Option Nat) (xs : List Ptr) (n : Nat)
    (hfew : xs.length < 4294967296) :
    ∀ j, j + n ≤ xs.length →
      dequeue_times n (queue_state d xs j)
        = some (((xs.drop j).take n).map (fun x => (x, x)), queue_state d xs (j + n)) := by
  induction n with
  | zero => intro j _; simp [dequeue_times]
  | succ n ih =>
    intro j hj
    have hlt : j < xs.length := by omega
    obtain ⟨hpeek, hdeq⟩ := nmqueue_dequeue_state d xs j hlt hfew
    have hstep := ih (j + 1) (by omega)
    have hget : xs.getD j 0 = xs[j] := List.getD_eq_getElem xs 0 hlt
    have hidx : j + 1 + n = j + (n + 1) := by omega
    rw [hidx] at hstep
    simp only [dequeue_times, hpeek, hdeq, hstep, List.drop_eq_getElem_cons hlt,
      List.take_succ_cons, List.map_cons, hget]

theorem nmlist_walk_null (nodes : List (Option nmlist_element)) (fuel : Nat) :
    nmlist_walk nodes fuel none = some [] := by
  cases fuel <;> rfl

/-- On a list whose `size` is `0`, `nmlist_remove_next` returns `NULL` and changes
nothing, whatever the nodes. -/
theorem nmlist_remove_next_size_zero (l : nmlist) (element : Option Nat) (h0 : l.size = 0) :
    nmlist_remove_next l element = some (0, l) := by
  simp only [nmlist_remove_next, h0, if_true]

theorem nmqueue_size_eq (q : nmlist) : nmqueue_size q = q.size := rfl

theorem nmqueue_dequeue_eq (q : nmlist) : nmqueue_dequeue q = nmlist_remove_next q none := rfl

/-- C24, as stated, fails once `size` wraps: after `2 ^ 32` data (all equal to `1`) are
enqueued on the empty queue of `nmlist_alloc`, every node granted and every call returning
`0`, the size of the queue is `0`, and `nmqueue_dequeue` returns `NULL` instead of the first
datum and leaves the queue as it is. -/
theorem nmqueue_dequeue_after_wrap :
    ∃ q0 q, nmlist_alloc (Heap.generous 0) none = some q0 ∧
      enqueue_all (Heap.generous 0) (List.replicate 4294967296 1) q0
        = some (List.replicate 4294967296 0, q) ∧
      nmqueue_size q = 0 ∧ nmqueue_dequeue q = some (0, q) := by
  have henq := enqueue_all_state 0 none (List.replicate 4294967296 1) []
  rw [List.nil_append, List.length_replicate] at henq
  have hsize : (queue_state none (List.replicate 4294967296 1) 0).size = 0 := by
    simp only [queue_state, List.length_replicate]
  exact ⟨queue_state none [] 0, queue_state none (List.replicate 4294967296 1) 0, rfl, henq,
    (nmqueue_size_eq _).trans hsize,
    (nmqueue_dequeue_eq _).trans (nmlist_remove_next_size_zero _ none hsize)⟩

/-- C24, amended: the queue is FIFO while `size` does not wrap.  For every sequence `xs` of
fewer than `2 ^ 32` data, starting from the empty queue given by `nmlist_alloc` and with
every node granted, the `nmqueue_enqueue` calls all return `0`; then `|xs|` rounds of
`nmqueue_peek` followed by `nmqueue_dequeue` yield the data of `xs` in the same order, each
peek showing the value the dequeue then returns, and the queue is left empty: size `0`, no
head, no tail, no item. -/
theorem nmqueue_fifo (junk : Ptr) (d : Option Nat) (xs : List Ptr)
    (hfew : xs.length < 4294967296) :
    ∃ q0 q1 q2,
      nmlist_alloc (Heap.generous junk) d = some q0 ∧ nmqueue_size q0 = 0 ∧
      enqueue_all (Heap.generous junk) xs q0 = some (List.replicate xs.length 0, q1) ∧
      nmqueue_size q1 = xs.length ∧
      dequeue_times xs.length q1 = some (xs.map (fun x => (x, x)), q2) ∧
      nmqueue_size q2 = 0 ∧ q2.head = none ∧ q2.tail = none ∧ q2.items = some [] := by
  have henq := enqueue_all_state junk d xs []
  have hdeq := dequeue_times_state d xs xs.length hfew 0 (by omega)
  rw [List.nil_append] at henq
  rw [List.drop_zero, List.take_length, Nat.zero_add] at hdeq
  refine ⟨queue_state d [] 0, queue_state d xs 0, queue_state d xs xs.length, rfl, rfl, henq,
    ?_, hdeq, ?_, ?_, ?_, ?_⟩
  · simp only [nmqueue_size, queue_state, Nat.sub_zero]
    exact Nat.mod_eq_of_lt hfew
  · simp [nmqueue_size, queue_state]
  · simp [queue_state]
  · simp [queue_state]
  · simp only [nmlist.items, queue_state, Nat.lt_irrefl, if_false, nmlist_walk_null]

/-- C24, amended, on the data `[10, 20, 30]`. -/
theorem nmqueue_fifo_witness :
    ∃ q0 q1 q2,
      nmlist_alloc (Heap.generous 0) none = some q0 ∧
      enqueue_all (Heap.generous 0) [10, 20, 30] q0 = some ([0, 0, 0], q1) ∧
      nmqueue_size q1 = 3 ∧
      dequeue_times 3 q1 = some ([(10, 10), (20, 20), (30, 30)], q2) ∧
      nmqueue_size q2 = 0 ∧ q2.head = none ∧ q2.tail = none := by
  obtain ⟨q0, q1, q2, h0, -, h1, h2, h3, h4, h5, h6, -⟩ :=
    nmqueue_fifo 0 none [10, 20, 30] (by decide)
  exact ⟨q0, q1, q2, h0, h1, h2, h3, h4, h5, h6⟩

/-! ## Slot accesses stay inside the block

The capacity field and the block are only ever replaced together, by `nmvect_expand`,
`nmvect_contract` and `nmvect_modcap`, and a slot write keeps the length of the block; so
on a vector whose block holds `capacity` slots the bound checked by `slot_read` and
`slot_write` is the capacity in force at the time of the access. -/

theorem realloc_length (h : Heap) (arr arr1 : List Ptr) (n : Nat)
    (hre : realloc h arr n = some arr1) : arr1.length = n := by
  unfold realloc at hre
  split at hre
  · cases hre
    simp only [List.length_append, List.length_take, List.length_replicate]
    omega
  · cases hre

theorem nmvect_expand_block (h : Heap) (v : nmvect) (hblock : v.array.length = v.capacity) :
    (nmvect_expand h v).2.array.length = (nmvect_expand h v).2.capacity := by
  cases hre : realloc h v.array (v.capacity * 3 % 4294967296 / 2 + 1) with
  | none => simpa only [nmvect_expand, hre] using hblock
  | some arr1 => simpa only [nmvect_expand, hre] using realloc_length h _ _ _ hre

theorem nmvect_contract_block (h : Heap) (v : nmvect) (hblock : v.array.length = v.capacity) :
    (nmvect_contract h v).2.array.length = (nmvect_contract h v).2.capacity := by
  cases hre : realloc h v.array (v.capacity * 2 % 4294967296 / 3 + 1) with
  | none => simpa only [nmvect_contract, hre] using hblock
  | some arr1 => simpa only [nmvect_contract, hre] using realloc_length h _ _ _ hre

theorem nmvect_modcap_block (h : Heap) (v : nmvect) (modif : Int)
    (hblock : v.array.length = v.capacity) :
    (nmvect_modcap h v modif).2.array.length = (nmvect_modcap h v modif).2.capacity := by
  by_cases h1 : u32 ((v.capacity : Int) + modif) < 1
  · simpa only [nmvect_modcap, h1, if_true] using hblock
  · by_cases h2 : modif = 0
    · subst h2
      simpa only [nmvect_modcap, h1, if_true, if_false] using hblock
    · cases hre : realloc h v.array (u32 ((v.capacity : Int) + modif)) with
      | none => simpa only [nmvect_modcap, h1, h2, if_false, hre] using hblock
      | some arr1 =>
        simpa only [nmvect_modcap, h1, h2, if_false, hre] using realloc_length h _ _ _ hre

theorem node_read_lt (nodes : List (Option nmlist_element)) (a : Nat) (e : nmlist_element)
    (h : node_read nodes a = some e) : a < nodes.length := by
  by_contra hge
  have hnone : nodes[a]? = none := List.getElem?_eq_none (by omega)
  simp [node_read, hnone] at h

theorem node_read_append_left (nodes : List (Option nmlist_element))
    (x : Option nmlist_element) (a : Nat) (ha : a < nodes.length) :
    node_read (nodes ++ [x]) a = node_read nodes a := by
  simp only [node_read, List.getElem?_append_left ha]

theorem node_read_append_new (nodes : List (Option nmlist_element)) (e : nmlist_element) :
    node_read (nodes ++ [some e]) nodes.length = some e := by
  simp [node_read]

theorem node_read_set_ne (nodes : List (Option nmlist_element)) (b : Nat)
    (y : Option nmlist_element) (a : Nat) (hab : a ≠ b) :
    node_read (nodes.set b y) a = node_read nodes a := by
  simp only [node_read, List.getElem?_set_ne (Ne.symm hab)]

theorem node_read_set_self (nodes : List (Option nmlist_element)) (b : Nat)
    (e : nmlist_element) (hb : b < nodes.length) :
    node_read (nodes.set b (some e)) b = some e := by
  simp [node_read, hb]

theorem nmlist_segment_append (nodes : List (Option nmlist_element)) (xs ys : List Nat) :
    ∀ p q, nmlist_segment nodes p (xs ++ ys) q
      ↔ ∃ m, nmlist_segment nodes p xs m ∧ nmlist_segment nodes m ys q := by
  induction xs with
  | nil =>
    intro p q
    simp [nmlist_segment]
  | cons a xs ih =>
    intro p q
    constructor
    · rintro ⟨hp, e, he, hrest⟩
      obtain ⟨m, h1, h2⟩ := (ih e.next q).mp hrest
      exact ⟨m, ⟨hp, e, he, h1⟩, h2⟩
    · rintro ⟨m, ⟨hp, e, he, h1⟩, h2⟩
      exact ⟨hp, e, he, (ih e.next q).mpr ⟨m, h1, h2⟩⟩

theorem nmlist_segment_congr (nodes nodes1 : List (Option nmlist_element)) (xs : List Nat) :
    (∀ a ∈ xs, node_read nodes1 a = node_read nodes a) →
    ∀ p q, nmlist_segment nodes p xs q → nmlist_segment nodes1 p xs q := by
  induction xs with
  | nil => intro _ p q h; exact h
  | cons a xs ih =>
    intro hsame p q h
    obtain ⟨hp, e, he, hrest⟩ := h
    refine ⟨hp, e, ?_, ih (fun b hb => hsame b (List.mem_cons_of_mem _ hb)) _ _ hrest⟩
    rw [hsame a (List.mem_cons_self _ _)]
    exact he

theorem nmlist_segment_live (nodes : List (Option nmlist_element)) (xs : List Nat) :
    ∀ p q, nmlist_segment nodes p xs q → ∀ a ∈ xs, a < nodes.length := by
  induction xs with
  | nil => intro _ _ _ a ha; cases ha
  | cons b xs ih =>
    intro p q h a ha
    obtain ⟨-, e, he, hrest⟩ := h
    rcases List.mem_cons.mp ha with hab | hmem
    · rw [hab]; exact node_read_lt nodes b e he
    · exact ih _ _ hrest a hmem

theorem nmlist_segment_null (nodes : List (Option nmlist_element)) (xs : List Nat)
    (q : Option Nat) (h : nmlist_segment nodes none xs q) : xs = [] := by
  cases xs with
  | nil => rfl
  | cons a xs => exact absurd h.1 (by simp)

theorem nmlist_chain_of_segment (nodes : List (Option nmlist_element)) (xs : List Nat) :
    ∀ fuel p, nmlist_segment nodes p xs none → xs.length ≤ fuel →
      nmlist_chain nodes fuel p = some xs := by
  induction xs with
  | nil =>
    intro fuel p h _
    have hp : p = none := h
    subst hp
    cases fuel <;> rfl
  | cons a xs ih =>
    intro fuel p h hlen
    obtain ⟨hp, e, he, hrest⟩ := h
    subst hp
    cases fuel with
    | zero => simp at hlen
    | succ fuel =>
      have hrec := ih fuel e.next hrest (by simpa using hlen)
      simp only [nmlist_chain, he, hrec]

theorem nodup_length_le (xs : List Nat) (n : Nat) (hnd : xs.Nodup) (hlt : ∀ a ∈ xs, a < n) :
    xs.length ≤ n := by
  have hsub : xs ⊆ List.range n := fun a ha => List.mem_range.mpr (hlt a ha)
  have := (List.Nodup.subperm hnd hsub).length_le
  simpa using this

/-- A sound list, read by the executable walk: the walk from `head` with one unit of fuel per
allocated node returns the chain of the invariant. -/
theorem nmlist_sound_chain (list : nmlist) (chain : List Nat) (hnd : chain.Nodup)
    (hseg : nmlist_segment list.nodes list.head chain none) : list.chain = some chain :=
  nmlist_chain_of_segment list.nodes chain list.nodes.length list.head hseg
    (nodup_length_le chain list.nodes.length hnd (nmlist_segment_live _ _ _ _ hseg))

theorem getLast?_append_cons (xs ys : List Nat) (b : Nat) :
    (xs ++ b :: ys).getLast? = (b :: ys).getLast? := by
  rw [List.getLast?_append, List.getLast?_eq_getLast (b :: ys) (by simp)]
  rfl

/-- The list that `nmlist_alloc` returns is sound. -/
theorem nmlist_alloc_sound (h : Heap) (destructor : Option Nat) (list : nmlist)
    (ha : nmlist_alloc h destructor = some list) : nmlist_sound list := by
  unfold nmlist_alloc at ha
  split at ha
  · cases ha
    exact ⟨[], List.nodup_nil, rfl, rfl, rfl⟩
  · cases ha

/-- Insertion at the head of a sound list of fewer than `2 ^ 32 - 1` nodes returns and
leaves a sound list. -/
theorem nmlist_insert_next_head_sound (h : Heap) (l : nmlist) (data : Ptr)
    (hs : nmlist_sound l) (hroom : l.size < 4294967295) :
    ∃ r, nmlist_insert_next h l none data = some r ∧ nmlist_sound r.2 := by
  by_cases hh : h.header = true
  · obtain ⟨chain, hnd, hseg, hsize, htail⟩ := hs
    have hlive := nmlist_segment_live _ _ _ _ hseg
    refine ⟨_, by simp only [nmlist_insert_next, hh, if_true]; rfl, l.nodes.length :: chain,
      ?_, ?_, ?_, ?_⟩
    · exact List.nodup_cons.mpr ⟨fun hmem => Nat.lt_irrefl _ (hlive _ hmem), hnd⟩
    · refine ⟨rfl, _, node_read_append_new _ _, ?_⟩
      exact nmlist_segment_congr l.nodes _ chain
        (fun a ha => node_read_append_left _ _ a (hlive a ha)) _ _ hseg
    · simp only [List.length_cons]
      rw [← hsize]
      exact Nat.mod_eq_of_lt (by omega)
    · cases chain with
      | nil =>
        have h0 : l.size = 0 := hsize
        simp only [h0, if_true, List.getLast?_singleton]
      | cons c cs =>
        have h0 : ¬ l.size = 0 := by rw [hsize]; simp
        simp only [h0, if_false, List.getLast?_cons_cons, htail]
  · exact ⟨(-1, l), by simp only [nmlist_insert_next, hh, Bool.false_eq_true, if_false], hs⟩

/-- Insertion after a node of a sound list of fewer than `2 ^ 32 - 1` nodes returns and
leaves a sound list. -/
theorem nmlist_insert_next_after_sound (h : Heap) (l : nmlist) (e : Nat) (data : Ptr)
    (chain : List Nat) (hnd : chain.Nodup)
    (hseg : nmlist_segment l.nodes l.head chain none)
    (hsize : l.size = chain.length) (htail : l.tail = chain.getLast?) (hmem : e ∈ chain)
    (hroom : l.size < 4294967295) :
    ∃ r, nmlist_insert_next h l (some e) data = some r ∧ nmlist_sound r.2 := by
  by_cases hh : h.header = true
  · obtain ⟨pre, post, hsplit⟩ := List.append_of_mem hmem
    subst hsplit
    have hlive := nmlist_segment_live _ _ _ _ hseg
    obtain ⟨m, hpre, hm, node, hnode, hpost⟩ :=
      (nmlist_segment_append _ pre (e :: post) _ _).mp hseg
    have hmid := List.nodup_middle.mp hnd
    have hnotin : e ∉ pre ++ post := (List.nodup_cons.mp hmid).1
    have he : e < l.nodes.length := node_read_lt _ _ _ hnode
    have hsame : ∀ a ∈ pre ++ post,
        node_read (l.nodes.set e (some { node with next := some l.nodes.length })
          ++ [some { data := data, next := node.next }]) a = node_read l.nodes a := by
      intro a ha
      have hlt : a < l.nodes.length := hlive a (by
        rcases List.mem_append.mp ha with h1 | h1
        · exact List.mem_append_left _ h1
        · exact List.mem_append_right _ (List.mem_cons_of_mem _ h1))
      have hne : a ≠ e := fun hae => hnotin (hae ▸ ha)
      rw [node_read_append_left _ _ a (by rw [List.length_set]; exact hlt),
        node_read_set_ne _ _ _ _ hne]
    refine ⟨_, by simp only [nmlist_insert_next, hh, if_true, hnode]; rfl,
      pre ++ e :: l.nodes.length :: post, ?_, ?_, ?_, ?_⟩
    · have hnew : l.nodes.length ∉ pre ++ [e] ++ post := by
        intro hin
        have hin2 : l.nodes.length ∈ pre ++ e :: post := by simpa using hin
        exact Nat.lt_irrefl _ (hlive _ hin2)
      have hnd2 : (pre ++ [e] ++ post).Nodup := by simpa using hnd
      have := List.nodup_middle.mpr (List.nodup_cons.mpr ⟨hnew, hnd2⟩)
      simpa using this
    · refine (nmlist_segment_append _ pre _ _ _).mpr
        ⟨m, ?_, hm, { node with next := some l.nodes.length }, ?_, rfl,
          { data := data, next := node.next }, ?_, ?_⟩
      · exact nmlist_segment_congr l.nodes _ pre
          (fun a ha => hsame a (List.mem_append_left _ ha)) _ _ hpre
      · rw [node_read_append_left _ _ e (by rw [List.length_set]; exact he)]
        exact node_read_set_self _ _ _ he
      · have hlen : (l.nodes.set e (some { node with next := some l.nodes.length })).length
            = l.nodes.length := List.length_set _ _ _
        have hnew := node_read_append_new
          (l.nodes.set e (some { node with next := some l.nodes.length }))
          { data := data, next := node.next }
        rw [hlen] at hnew
        exact hnew
      · exact nmlist_segment_congr l.nodes _ post
          (fun a ha => hsame a (List.mem_append_right _ ha)) _ _ hpost
    · have hlen : (pre ++ e :: l.nodes.length :: post).length = l.size + 1 := by
        rw [hsize]
        simp only [List.length_append, List.length_cons]
        omega
      rw [hlen]
      exact Nat.mod_eq_of_lt (by omega)
    · cases post with
      | nil =>
        have hnext : node.next = none := hpost
        simp only [hnext, if_true]
        have : pre ++ [e, l.nodes.length] = (pre ++ [e]) ++ [l.nodes.length] := by simp
        rw [this, List.getLast?_concat]
      | cons b post =>
        have hnext : ¬ node.next = none := by
          have : node.next = some b := hpost.1
          rw [this]; simp
        simp only [hnext, if_false, htail]
        have h1 : pre ++ e :: l.nodes.length :: b :: post
            = (pre ++ [e, l.nodes.length]) ++ b :: post := by simp
        have h2 : pre ++ e :: b :: post = (pre ++ [e]) ++ b :: post := by simp
        rw [h1, h2, getLast?_append_cons, getLast?_append_cons]
  · exact ⟨(-1, l), by simp only [nmlist_insert_next, hh, Bool.false_eq_true, if_false],
      ⟨chain, hnd, hseg, hsize, htail⟩⟩

/-- Removal of the head of a sound list returns and leaves a sound list. -/
theorem nmlist_remove_next_head_sound (l : nmlist) (hs : nmlist_sound l) :
    ∃ r, nmlist_remove_next l none = some r ∧ nmlist_sound r.2 := by
  obtain ⟨chain, hnd, hseg, hsize, htail⟩ := hs
  cases chain with
  | nil =>
    have h0 : l.size = 0 := hsize
    exact ⟨(0, l), by simp only [nmlist_remove_next, h0, if_true],
      ⟨[], hnd, hseg, hsize, htail⟩⟩
  | cons a rest =>
    obtain ⟨hp, old, hold, hrest⟩ := hseg
    have h0 : ¬ l.size = 0 := by rw [hsize]; simp
    have hna : a ∉ rest := (List.nodup_cons.mp hnd).1
    refine ⟨_, by simp only [nmlist_remove_next, h0, if_false, hp, hold]; rfl, rest,
      (List.nodup_cons.mp hnd).2, ?_, ?_, ?_⟩
    · exact nmlist_segment_congr l.nodes _ rest
        (fun b hb => node_read_set_ne _ _ _ _ (fun hba => hna (by rw [← hba]; exact hb)))
        _ _ hrest
    · simp only [hsize, List.length_cons, Nat.add_sub_cancel]
    · cases rest with
      | nil =>
        have h1 : l.size = 1 := hsize
        simp only [h1, if_true, List.getLast?_nil]
      | cons c cs =>
        have h1 : ¬ l.size = 1 := by rw [hsize]; simp
        simp only [h1, if_false, htail, List.getLast?_cons_cons]

/-- Removal after a node of a sound list returns and leaves a sound list. -/
theorem nmlist_remove_next_after_sound (l : nmlist) (e : Nat) (chain : List Nat)
    (hnd : chain.Nodup) (hseg : nmlist_segment l.nodes l.head chain none)
    (hsize : l.size = chain.length) (htail : l.tail = chain.getLast?) (hmem : e ∈ chain) :
    ∃ r, nmlist_remove_next l (some e) = some r ∧ nmlist_sound r.2 := by
  obtain ⟨pre, post, hsplit⟩ := List.append_of_mem hmem
  subst hsplit
  have h0 : ¬ l.size = 0 := by rw [hsize]; simp
  obtain ⟨m, hpre, hm, node, hnode, hpost⟩ :=
    (nmlist_segment_append _ pre (e :: post) _ _).mp hseg
  have he : e < l.nodes.length := node_read_lt _ _ _ hnode
  cases post with
  | nil =>
    have hnext : node.next = none := hpost
    exact ⟨(0, l), by simp only [nmlist_remove_next, h0, if_false, hnode, hnext],
      ⟨pre ++ [e], hnd, hseg, hsize, htail⟩⟩
  | cons b post =>
    obtain ⟨hnext, old, hold, hrest⟩ := hpost
    have hnotin : e ∉ pre ++ b :: post := (List.nodup_cons.mp (List.nodup_middle.mp hnd)).1
    have hsplit2 : pre ++ e :: b :: post = (pre ++ [e]) ++ b :: post := by simp
    have hmid2 : (b :: (pre ++ [e] ++ post)).Nodup := by
      rw [hsplit2] at hnd
      exact List.nodup_middle.mp hnd
    have hbnotin : b ∉ pre ++ [e] ++ post := (List.nodup_cons.mp hmid2).1
    have hbe : e ≠ b := fun heb => hbnotin (by rw [← heb]; simp)
    have hsame : ∀ a ∈ pre ++ post,
        node_read ((l.nodes.set e (some { node with next := old.next })).set b none) a
          = node_read l.nodes a := by
      intro a ha
      have hab : a ≠ b := by
        intro hab
        apply hbnotin
        rw [← hab]
        rcases List.mem_append.mp ha with h1 | h1
        · exact List.mem_append_left _ (List.mem_append_left _ h1)
        · exact List.mem_append_right _ h1
      have hae : a ≠ e := by
        intro hae
        apply hnotin
        rw [← hae]
        rcases List.mem_append.mp ha with h1 | h1
        · exact List.mem_append_left _ h1
        · exact List.mem_append_right _ (List.mem_cons_of_mem _ h1)
      rw [node_read_set_ne _ _ _ _ hab, node_read_set_ne _ _ _ _ hae]
    refine ⟨_, by simp only [nmlist_remove_next, h0, if_false, hnode, hnext, hold]; rfl,
      pre ++ e :: post, ?_, ?_, ?_, ?_⟩
    · have := (List.nodup_cons.mp hmid2).2
      simpa using this
    · refine (nmlist_segment_append _ pre _ _ _).mpr
        ⟨m, ?_, hm, { node with next := old.next }, ?_, ?_⟩
      · exact nmlist_segment_congr l.nodes _ pre
          (fun a ha => hsame a (List.mem_append_left _ ha)) _ _ hpre
      · rw [node_read_set_ne _ _ _ _ hbe]
        exact node_read_set_self _ _ _ he
      · exact nmlist_segment_congr l.nodes _ post
          (fun a ha => hsame a (List.mem_append_right _ ha)) _ _ hrest
    · simp only [hsize, List.length_append, List.length_cons]
      omega
    · cases post with
      | nil =>
        have hon : old.next = none := hrest
        simp only [hon, if_true, List.getLast?_concat]
      | cons c cs =>
        have hon : ¬ old.next = none := by
          have : old.next = some c := hrest.1
          rw [this]; simp
        simp only [hon, if_false, htail]
        have h1 : pre ++ e :: b :: c :: cs = (pre ++ [e, b]) ++ c :: cs := by simp
        have h2 : pre ++ e :: c :: cs = (pre ++ [e]) ++ c :: cs := by simp
        rw [h1, h2, getLast?_append_cons, getLast?_append_cons]

theorem nmlist_owns_mem (l : nmlist) (chain : List Nat) (a : Nat)
    (hchain : l.chain = some chain) (hown : l.owns (some a) = true) : a ∈ chain := by
  simp only [nmlist.owns, hchain, decide_eq_true_eq] at hown
  exact hown

/-- On a sound list of fewer than `2 ^ 32 - 1` nodes `nmlist_insert_next` with an element
argument that is `NULL` or a node of the list returns, and the list afterwards is sound. -/
theorem nmlist_insert_next_sound (h : Heap) (l : nmlist) (element : Option Nat) (data : Ptr)
    (hs : nmlist_sound l) (hroom : l.size < 4294967295) (hown : l.owns element = true) :
    ∃ r, nmlist_insert_next h l element data = some r ∧ nmlist_sound r.2 := by
  cases element with
  | none => exact nmlist_insert_next_head_sound h l data hs hroom
  | some e =>
    obtain ⟨chain, hnd, hseg, hsize, htail⟩ := hs
    exact nmlist_insert_next_after_sound h l e data chain hnd hseg hsize htail
      (nmlist_owns_mem l chain e (nmlist_sound_chain l chain hnd hseg) hown) hroom

/-- On a sound list `nmlist_remove_next` with an element argument that is `NULL` or a node of
the list returns, and the list afterwards is sound. -/
theorem nmlist_remove_next_sound (l : nmlist) (element : Option Nat)
    (hs : nmlist_sound l) (hown : l.owns element = true) :
    ∃ r, nmlist_remove_next l element = some r ∧ nmlist_sound r.2 := by
  cases element with
  | none => exact nmlist_remove_next_head_sound l hs
  | some e =>
    obtain ⟨chain, hnd, hseg, hsize, htail⟩ := hs
    exact nmlist_remove_next_after_sound l e chain hnd hseg hsize htail
      (nmlist_owns_mem l chain e (nmlist_sound_chain l chain hnd hseg) hown)

/-- On a sound list `nmlist_insert_next` returns for every element argument that is `NULL`
or a node of the list, whatever the size. -/
theorem nmlist_insert_next_returns (h : Heap) (l : nmlist) (element : Option Nat)
    (data : Ptr) (hs : nmlist_sound l) (hown : l.owns element = true) :
    ∃ r, nmlist_insert_next h l element data = some r := by
  by_cases hh : h.header = true
  · cases element with
    | none => exact ⟨_, by simp only [nmlist_insert_next, hh, if_true]; rfl⟩
    | some e =>
      obtain ⟨chain, hnd, hseg, -, -⟩ := hs
      have hmem := nmlist_owns_mem l chain e (nmlist_sound_chain l chain hnd hseg) hown
      obtain ⟨pre, post, hsplit⟩ := List.append_of_mem hmem
      subst hsplit
      obtain ⟨m, -, -, node, hnode, -⟩ :=
        (nmlist_segment_append _ pre (e :: post) _ _).mp hseg
      exact ⟨_, by simp only [nmlist_insert_next, hh, if_true, hnode]; rfl⟩
  · exact ⟨(-1, l), by simp only [nmlist_insert_next, hh, Bool.false_eq_true, if_false]⟩

/-- Every list reachable by calls that insert only below `2 ^ 32 - 1` nodes is sound. -/
theorem nmlist_reachable_sound (l : nmlist) (hreach : nmlist_reachable 4294967295 l) :
    nmlist_sound l := by
  induction hreach with
  | alloc h destructor list ha => exact nmlist_alloc_sound h destructor list ha
  | insert_next h list element data r _ hroom hown hcall ih =>
    obtain ⟨r1, h1, hs1⟩ := nmlist_insert_next_sound h list element data ih hroom hown
    rw [h1] at hcall
    cases hcall
    exact hs1
  | remove_next list element r _ hown hcall ih =>
    obtain ⟨r1, h1, hs1⟩ := nmlist_remove_next_sound list element ih hown
    rw [h1] at hcall
    cases hcall
    exact hs1

/-- The `size` of a reachable list is an `unsigned int`: it is below `2 ^ 32` whatever the
limit put on the insertions. -/
theorem nmlist_reachable_size_lt (limit : Nat) (l : nmlist)
    (hreach : nmlist_reachable limit l) : l.size < 4294967296 := by
  induction hreach with
  | alloc h destructor list ha =>
    unfold nmlist_alloc at ha
    split at ha
    · cases ha
      exact Nat.zero_lt_succ _
    · cases ha
  | insert_next h list element data r _ _ _ hcall ih =>
    unfold nmlist_insert_next at hcall
    split at hcall
    · cases element with
      | none =>
        cases hcall
        exact Nat.mod_lt _ (by decide)
      | some e =>
        simp only at hcall
        split at hcall
        · cases hcall
        · cases hcall
          exact Nat.mod_lt _ (by decide)
    · cases hcall
      exact ih
  | remove_next list element r _ _ hcall ih =>
    unfold nmlist_remove_next at hcall
    split at hcall
    · cases hcall
      exact ih
    · cases element with
      | none =>
        simp only at hcall
        split at hcall
        · cases hcall
        · split at hcall
          · cases hcall
          · cases hcall
            exact Nat.lt_of_le_of_lt (Nat.sub_le _ _) ih
      | some e =>
        simp only at hcall
        split at hcall
        · cases hcall
        · split at hcall
          · cases hcall
            exact ih
          · split at hcall
            · cases hcall
            · cases hcall
              exact Nat.lt_of_le_of_lt (Nat.sub_le _ _) ih

/-- The list after `n` insertions at the head, every node granted: it is reachable with no
limit on the insertions, holds `n` nodes, the last inserted one at its head, and its `size`
is `n` modulo `2 ^ 32`. -/
theorem nmlist_reachable_pushes (n : Nat) :
    ∃ l, nmlist_reachable 4294967296 l ∧ l.size = n % 4294967296 ∧ l.nodes.length = n ∧
      (0 < n → l.head = some (n - 1)) := by
  induction n with
  | zero =>
    exact ⟨{ destructor := none, cmp := none, size := 0, head := none, tail := none,
             nodes := [] },
      nmlist_reachable.alloc (Heap.generous 0) none _ rfl, rfl, rfl, fun h => absurd h (by decide)⟩
  | succ n ih =>
    obtain ⟨l, hreach, hsize, hlen, -⟩ := ih
    have hlt : l.size < 4294967296 := by rw [hsize]; exact Nat.mod_lt _ (by decide)
    have hcall : nmlist_insert_next (Heap.generous 0) l none 0
        = some (0, { l with
            tail := if l.size = 0 then some l.nodes.length else l.tail,
            head := some l.nodes.length,
            nodes := l.nodes ++ [some { data := 0, next := l.head }],
            size := (l.size + 1) % 4294967296 }) := rfl
    refine ⟨_, nmlist_reachable.insert_next (Heap.generous 0) l none 0 _ hreach hlt rfl hcall,
      ?_, ?_, ?_⟩
    · simp only [hsize]
      omega
    · simp only [List.length_append, List.length_singleton, hlen]
    · intro _
      simp only [hlen, Nat.add_sub_cancel]

/-- C32, as stated, fails once `size` wraps: `2 ^ 32` insertions at the head of the list of
`nmlist_alloc` (element argument `NULL`, every node granted) leave a list of `2 ^ 32` nodes
whose `size` is `0` while `head` is not `NULL`. -/
theorem nmlist_size_wraps :
    ∃ l, nmlist_reachable 4294967296 l ∧ l.nodes.length = 4294967296 ∧ l.size = 0 ∧
      l.head = some 4294967295 := by
  obtain ⟨l, hreach, hsize, hlen, hhead⟩ := nmlist_reachable_pushes 4294967296
  exact ⟨l, hreach, hlen, hsize, hhead (by decide)⟩

/-- C32, amended: the representation invariant of the linked list while `size` does not
wrap.  For every list reachable from `nmlist_alloc` by calls of `nmlist_insert_next` and
`nmlist_remove_next` whose element argument is `NULL` or a node of the list (whether or not
each allocation succeeds), the insertions being made on lists of fewer than `2 ^ 32 - 1`
nodes: the walk from `head` along `next` ends in `NULL` and meets pairwise distinct nodes,
`size` is their number, `tail` is the last of them and its `next` is `NULL`, and each of
`head` and `tail` is `NULL` exactly when `size` is `0`.  Moreover both functions return on
such a list, for every element argument that is `NULL` or one of its nodes: no dangling
pointer is followed. -/
theorem nmlist_representation_invariant (list : nmlist)
    (hreach : nmlist_reachable 4294967295 list) :
    (∃ chain, list.chain = some chain ∧ chain.Nodup ∧ list.size = chain.length ∧
      list.tail = chain.getLast? ∧
      (∀ t, list.tail = some t → ∃ e, node_read list.nodes t = some e ∧ e.next = none)) ∧
    (list.head = none ↔ list.size = 0) ∧ (list.tail = none ↔ list.size = 0) ∧
    (∀ (h : Heap) (element : Option Nat) (data : Ptr), list.owns element = true →
      (∃ r, nmlist_insert_next h list element data = some r) ∧
      (∃ r, nmlist_remove_next list element = some r)) := by
  have hs := nmlist_reachable_sound list hreach
  obtain ⟨chain, hnd, hseg, hsize, htail⟩ := hs
  refine ⟨⟨chain, nmlist_sound_chain list chain hnd hseg, hnd, hsize, htail, ?_⟩, ?_, ?_, ?_⟩
  · intro t ht
    rw [htail] at ht
    obtain ⟨ys, hys⟩ := List.getLast?_eq_some_iff.mp ht
    rw [hys] at hseg
    obtain ⟨m, -, -, e, he, hnext⟩ := (nmlist_segment_append _ ys [t] _ _).mp hseg
    exact ⟨e, he, hnext⟩
  · cases chain with
    | nil =>
      have hh : list.head = none := hseg
      have h0 : list.size = 0 := hsize
      simp only [hh, h0]
    | cons a rest =>
      have hh : list.head = some a := hseg.1
      have h0 : list.size = rest.length + 1 := hsize
      simp only [hh, h0]
      simp
  · rw [htail, hsize, List.getLast?_eq_none_iff, List.length_eq_zero]
  · intro h element data hown
    obtain ⟨r2, h2, -⟩ := nmlist_remove_next_sound list element
      ⟨chain, hnd, hseg, hsize, htail⟩ hown
    exact ⟨nmlist_insert_next_returns h list element data
      ⟨chain, hnd, hseg, hsize, htail⟩ hown, ⟨r2, h2⟩⟩

/-- C32, amended, on the list built by `nmlist_alloc`, the insertion of `10` at the head, the
insertion of `20` after that node and the removal of the head: one node is left, at address
`1`, which is both `head` and `tail`. -/
theorem nmlist_representation_invariant_witness :
    nmlist_reachable 4294967295
      { destructor := none, cmp := none, size := 1, head := some 1, tail := some 1,
        nodes := [none, some { data := 20, next := none }] } ∧
    ∃ chain, nmlist.chain
      { destructor := none, cmp := none, size := 1, head := some 1, tail := some 1,
        nodes := [none, some { data := 20, next := none }] } = some chain ∧
      1 = chain.length ∧ some 1 = chain.getLast? := by
  have h0 : nmlist_reachable 4294967295
      { destructor := none, cmp := none, size := 0, head := none, tail := none,
        nodes := [] } :=
    nmlist_reachable.alloc (Heap.generous 0) none _ rfl
  have h1 : nmlist_reachable 4294967295
      { destructor := none, cmp := none, size := 1, head := some 0, tail := some 0,
        nodes := [some { data := 10, next := none }] } :=
    nmlist_reachable.insert_next (Heap.generous 0) _ none 10 (0, _) h0 (by decide) rfl rfl
  have h2 : nmlist_reachable 4294967295
      { destructor := none, cmp := none, size := 2, head := some 0, tail := some 1,
        nodes := [some { data := 10, next := some 1 }, some { data := 20, next := none }] } :=
    nmlist_reachable.insert_next (Heap.generous 0) _ (some 0) 20 (0, _) h1 (by decide) rfl rfl
  have h3 : nmlist_reachable 4294967295
      { destructor := none, cmp := none, size := 1, head := some 1, tail := some 1,
        nodes := [none, some { data := 20, next := none }] } :=
    nmlist_reachable.remove_next _ none (10, _) h2 rfl rfl
  obtain ⟨⟨chain, hc, -, hsize, htail, -⟩, -⟩ := nmlist_representation_invariant _ h3
  exact ⟨h3, chain, hc, hsize, htail⟩


/-! ## Where the 32-bit arithmetic gives out

The capacity formulas are computed in `unsigned int`, the loop counters and the modifier of
`nmvect_modcap` are `int`.  The theorems above carry the bounds under which these do not wrap;
the statements below show, on vectors past those bounds, what the code does instead. -/

/-- The loop of `nmvect_remove` entered with a counter at or above `INT_MAX`. -/
theorem nmvect_remove_loop_int (n i : Nat) (arr : List Ptr) (hi : 2147483647 ≤ i) :
    nmvect_remove_loop (n + 1) i arr = none := by
  simp only [nmvect_remove_loop, hi, if_true]

/-- The `int` counter of `nmvect_remove`: at an `index ≥ INT_MAX` that is not the last one
of the vector, the shifting loop runs with a counter that an `int` cannot hold. -/
theorem nmvect_remove_int_counter (h : Heap) (v : nmvect) (index : Nat)
    (hblock : v.array.length = v.capacity) (hsize : v.size ≤ v.capacity)
    (hquiet : v.size ≠ v.capacity * 2 % 4294967296 / 3 + 1)
    (hidx : index + 1 < v.size) (hbig : 2147483647 ≤ index) :
    nmvect_remove h v index = none := by
  have h1 : ¬ index ≥ v.size := by omega
  have hlt : index < v.array.length := by omega
  have hread : slot_read v.array index = some v.array[index] := by
    simp [slot_read, List.getElem?_eq_getElem hlt]
  have hcount : v.size - 1 - index = (v.size - 2 - index) + 1 := by omega
  simp only [nmvect_remove, h1, hquiet, if_false, hread, hcount,
    nmvect_remove_loop_int _ _ _ hbig]

/-- C7, as stated, fails beyond the range of an `int`: on a full vector of `2 ^ 31 + 1`
slots, `nmvect_remove` at index `INT_MAX` enters its shifting loop with `i = INT_MAX`, and
the subscript `i + 1` of `array[i+1]` overflows; the call has no defined result. -/
theorem nmvect_remove_counter_overflow :
    nmvect_remove (Heap.generous 0)
      { destructor := none, cmp := none, capacity := 2147483649, size := 2147483649,
        array := List.replicate 2147483649 0 } 2147483647 = none :=
  nmvect_remove_int_counter (Heap.generous 0)
    { destructor := none, cmp := none, capacity := 2147483649, size := 2147483649,
      array := List.replicate 2147483649 0 } 2147483647
    (List.length_replicate _ _) (Nat.le_refl _) (by decide) (by decide) (by decide)

/-- The loop of `nmvect_occurence` over more than `INT_MAX` slots, with a comparator that
never reports a match: it cannot end, since its `int` counter would have to pass
`INT_MAX`. -/
theorem nmvect_occurence_loop_int (h : Heap) (c : Ptr → Ptr → Int) (arr : List Ptr) (d : Ptr)
    (hnever : ∀ x, c x d ≠ 0) (m : Nat) :
    ∀ (i : Nat) (rlist : Option nmlist) (cells : List Nat), 0 < m → 2147483647 < i + m →
      nmvect_occurence_loop h (some c) m i arr d rlist cells = none := by
  induction m with
  | zero => intro i rlist cells h0 _; omega
  | succ m ih =>
    intro i rlist cells _ hbig
    cases hread : slot_read arr i with
    | none => simp only [nmvect_occurence_loop, hread]
    | some x =>
      by_cases hg : 2147483647 ≤ i
      · simp only [nmvect_occurence_loop, hread, hnever x, if_false, hg, if_true]
      · simp only [nmvect_occurence_loop, hread, hnever x, if_false, hg]
        exact ih (i + 1) rlist cells (by omega) (by omega)

theorem nmvect_occurence_int_counter (h : Heap) (v : nmvect) (c : Ptr → Ptr → Int) (d : Ptr)
    (hcmp : v.cmp = some c) (hnever : ∀ x, c x d ≠ 0) (hbig : 2147483647 < v.size) :
    nmvect_occurence h v d = none := by
  rw [nmvect_occurence, hcmp]
  exact nmvect_occurence_loop_int h c v.array d hnever v.size 0 _ _ (by omega) (by omega)

/-- C13, as stated, fails beyond the range of an `int`: on a full vector of `2 ^ 31` slots,
with a comparator that never reports a match and every request granted, the loop of
`nmvect_occurence` enters its last iteration with `i = INT_MAX` and overflows `i++`; the
call has no defined result, where the claim promises an empty sequence. -/
theorem nmvect_occurence_counter_overflow :
    nmvect_occurence (Heap.generous 0)
      { destructor := none, cmp := some (fun _ _ => 1), capacity := 2147483648,
        size := 2147483648, array := List.replicate 2147483648 0 } 5 = none :=
  nmvect_occurence_int_counter (Heap.generous 0)
    { destructor := none, cmp := some (fun _ _ => 1), capacity := 2147483648,
      size := 2147483648, array := List.replicate 2147483648 0 } (fun _ _ => 1) 5 rfl
    (fun _ => by show (1 : Int) ≠ 0; decide) (by decide)

/-- The loop of `nmvect_free` over more than `INT_MAX` slots cannot end: its `int` counter
would have to pass `INT_MAX`. -/
theorem nmvect_free_loop_int (arr : List Ptr) (m : Nat) :
    ∀ i, 0 < m → 2147483647 < i + m → nmvect_free_loop m i arr = none := by
  induction m with
  | zero => intro i h0 _; omega
  | succ m ih =>
    intro i _ hbig
    by_cases hg : 2147483647 ≤ i
    · simp only [nmvect_free_loop, hg, if_true]
    · cases hread : slot_read arr i with
      | none => simp only [nmvect_free_loop, hg, if_false, hread]
      | some x =>
        simp only [nmvect_free_loop, hg, if_false, hread, ih (i + 1) (by omega) (by omega)]

theorem nmvect_free_int_counter (v : nmvect) (f : Nat) (hdes : v.destructor = some f)
    (hbig : 2147483647 < v.size) : nmvect_free v = none := by
  simp only [nmvect_free, hdes, nmvect_free_loop_int v.array v.size 0 (by omega) (by omega)]

/-- C16, as stated, fails in two ways.  On a vector that holds a `NULL` element: freeing
`[10, NULL, 30]` invokes the destructor on `10` and `30` only, not on the element at each
index.  Beyond the range of an `int`: on a full vector of `2 ^ 31` slots the loop of
`nmvect_free` enters its last iteration with `i = INT_MAX` and overflows `i++`, and the call
has no defined result. -/
theorem nmvect_free_not_once_per_index :
    nmvect_free
        { destructor := some 1, cmp := none, capacity := 3, size := 3, array := [10, 0, 30] }
      = some (0, none, [10, 30]) ∧
    ([10, 30] : List Ptr) ≠ [10, 0, 30] ∧
    nmvect_free
      { destructor := some 1, cmp := none, capacity := 2147483648, size := 2147483648,
        array := List.replicate 2147483648 5 } = none :=
  ⟨rfl, by decide,
    nmvect_free_int_counter
      { destructor := some 1, cmp := none, capacity := 2147483648, size := 2147483648,
        array := List.replicate 2147483648 5 } 1 rfl (by decide)⟩

/-- The capacity adjustment of `nmvect_insert_range` when `capacity + size(addvect)` does not
fit an `int`: on a vector of `2 ^ 31` slots and an `addvect` of one element the modifier is
`-(2 ^ 31 - 1)`, the new capacity is `1`, and the block is cut to one slot. -/
theorem nmvect_modcap_wrapped (junk : Ptr) (v : nmvect) (k : Nat)
    (hcap : v.capacity = 2147483648) (hk : k = 1) :
    nmvect_modcap (Heap.generous junk) v (i32 (v.capacity + k))
      = (0, { v with array := v.array.take 1 ++ List.replicate (1 - v.array.length) junk,
                     capacity := 1 }) := by
  have hi : i32 (v.capacity + k) = -2147483647 := by
    rw [hcap, hk]
    unfold i32
    norm_num
  have hu : u32 ((v.capacity : Int) + -2147483647) = 1 := by unfold u32; omega
  have hnot : ¬ (1 : Nat) < 1 := by omega
  have hne : ¬ ((-2147483647 : Int) = 0) := by omega
  simp only [nmvect_modcap, hi, hu, hnot, hne, if_false, realloc_generous]

/-- The range insertion on a vector of `2 ^ 31` slots holding two elements, with an `addvect`
of one element and every request granted: the capacity adjustment cuts the block to one
slot, and the call then leaves the block, at index `1` when it copies the old tail and at
index `2` when it writes the new element. -/
theorem nmvect_insert_range_wrapped (junk : Ptr) (v a : nmvect) (index : Nat)
    (hblock : v.array.length = v.capacity) (hcap : v.capacity = 2147483648)
    (hsize : v.size = 2) (ha : a.size = 1) (halen : 1 ≤ a.array.length)
    (hidx : index = 1 ∨ index = 2) :
    nmvect_insert_range (Heap.generous junk) v index a = none := by
  have hnot : ¬ index > v.size := by omega
  have hmod := nmvect_modcap_wrapped junk v a.size hcap ha
  have hlen : (v.array.take 1 ++ List.replicate (1 - v.array.length) junk).length = 1 := by
    simp only [List.length_append, List.length_take, List.length_replicate]
    omega
  rcases hidx with h1 | h2
  · subst h1
    have hread : slot_read (v.array.take 1 ++ List.replicate (1 - v.array.length) junk) 1
        = none := by
      simp only [slot_read]
      exact List.getElem?_eq_none (by omega)
    have hcount : v.size - 1 = 0 + 1 := by omega
    simp only [nmvect_insert_range, hnot, if_false, hmod, ne_eq, not_true_eq_false,
      nmvect_alloc_generous, hcount, nmvect_copy_loop, hread, ite_self]
  · subst h2
    rw [ha] at hmod
    have hcount : v.size - 2 = 0 := by omega
    have hreada : slot_read a.array 0 = some a.array[0] := by
      simp [slot_read, List.getElem?_eq_getElem (show 0 < a.array.length by omega)]
    have hgrow : 0 + 2 ≥ v.size := by omega
    have hout : ¬ 0 + 2
        < (v.array.take 1 ++ List.replicate (1 - v.array.length) junk).length := by
      rw [hlen]; omega
    simp only [nmvect_insert_range, hnot, if_false, hmod, ne_eq, not_true_eq_false,
      nmvect_alloc_generous, hcount, nmvect_copy_loop, ha, nmvect_insert_range_write, hgrow,
      if_true, hreada, slot_write, hout, if_false, ite_self]

/-- C21, as stated, fails in two ways.  Once `capacity + size(other)` does not fit an `int`:
on a vector of `2 ^ 31` slots holding `[1, 2]`, appending the range `[8]`, every request
granted, makes `nmvect_modcap` cut the block to one slot, and the write of the new element
at index `2` leaves the block; the call has no defined result.  Under an allocator that
refuses the enlarged block: on `[1, 2]` (capacity `3`) the call returns `-1` and appends
nothing. -/
theorem nmvect_append_range_wrapped_capacity :
    nmvect_append_range (Heap.generous 0)
      { destructor := none, cmp := none, capacity := 2147483648, size := 2,
        array := 1 :: 2 :: List.replicate 2147483646 0 } 7
      { destructor := none, cmp := none, capacity := 1, size := 1, array := [8] } = none ∧
    (nmvect_append_range { header := true, grants := fun _ => false, junk := 0 }
        { destructor := none, cmp := none, capacity := 3, size := 2, array := [1, 2, 0] } 7
        { destructor := none, cmp := none, capacity := 1, size := 1, array := [8] }).map
      (fun r => (r.1, r.2.size, r.2.elems)) = some (-1, 2, [1, 2]) :=
  ⟨nmvect_insert_range_wrapped 0
      { destructor := none, cmp := none, capacity := 2147483648, size := 2,
        array := 1 :: 2 :: List.replicate 2147483646 0 }
      { destructor := none, cmp := none, capacity := 1, size := 1, array := [8] } 2
      (by rw [List.length_cons, List.length_cons, List.length_replicate]) rfl rfl rfl
      (by decide) (Or.inr rfl),
    by decide⟩

/-- C29, as stated, fails once `capacity + |a|` does not fit an `int`: on a vector of
`2 ^ 31` slots holding `[1, 2]`, inserting `[8]` at index `1`, every request granted, makes
`nmvect_modcap` set the capacity to `1`, not `2 * c + |a|`, and the copy of the old tail
reads index `1` outside the block; the call has no defined result. -/
theorem nmvect_insert_range_wrapped_capacity :
    nmvect_insert_range (Heap.generous 0)
      { destructor := none, cmp := none, capacity := 2147483648, size := 2,
        array := 1 :: 2 :: List.replicate 2147483646 0 } 1
      { destructor := none, cmp := none, capacity := 1, size := 1, array := [8] } = none ∧
    (nmvect_modcap (Heap.generous 0)
      { destructor := none, cmp := none, capacity := 2147483648, size := 2,
        array := 1 :: 2 :: List.replicate 2147483646 0 }
      (i32 (2147483648 + 1))).2.capacity = 1 :=
  ⟨nmvect_insert_range_wrapped 0
      { destructor := none, cmp := none, capacity := 2147483648, size := 2,
        array := 1 :: 2 :: List.replicate 2147483646 0 }
      { destructor := none, cmp := none, capacity := 1, size := 1, array := [8] } 1
      (by rw [List.length_cons, List.length_cons, List.length_replicate]) rfl rfl rfl
      (by decide) (Or.inl rfl),
    congrArg (fun r => r.2.capacity) (nmvect_modcap_wrapped 0
      { destructor := none, cmp := none, capacity := 2147483648, size := 2,
        array := 1 :: 2 :: List.replicate 2147483646 0 } 1 rfl rfl)⟩

/-- The contraction trigger computed with 32 bits: on a vector of capacity `2 ^ 31`
holding one element, `capacity * 2` wraps to `0`, the trigger fires at size `1`, and
`nmvect_remove`, the request granted, leaves a capacity of `1`. -/
theorem nmvect_remove_wrapped (junk : Ptr) (v : nmvect) (index : Nat)
    (hblock : v.array.length = v.capacity) (hcap : v.capacity = 2147483648)
    (hsize : v.size = 1) (hidx : index < 1) :
    ∃ data v1, nmvect_remove (Heap.generous junk) v index = some (data, v1, []) ∧
      v1.capacity = 1 := by
  obtain ⟨data, v1, hcall, -, -, hc⟩ := nmvect_remove_capacity (Heap.generous junk) v index
    hblock (by omega) (by omega) (by omega)
  have htrig : v.size = v.capacity * 2 % 4294967296 / 3 + 1 ∧
      (Heap.generous junk).grants v.size = true := ⟨by omega, rfl⟩
  rw [if_pos htrig, hsize] at hc
  exact ⟨data, v1, hcall, hc⟩

/-- The bound `2 * c < 2 ^ 32` of the amended C27 is needed: on a vector of capacity
`2 ^ 31` holding one element the trigger `size == capacity * 2 / 3 + 1`, computed with 32
bits, fires (`2 ^ 31 * 2` wraps to `0`), and `nmvect_remove` brings the capacity down to `1`
although the size before the call, `1`, is not `c * 2 / 3 + 1`. -/
theorem nmvect_remove_wrapped_trigger :
    ∃ data v1, nmvect_remove (Heap.generous 0)
        { destructor := none, cmp := none, capacity := 2147483648, size := 1,
          array := 1 :: List.replicate 2147483647 0 } 0 = some (data, v1, []) ∧
      v1.capacity = 1 ∧ 1 ≠ 2147483648 * 2 / 3 + 1 := by
  obtain ⟨data, v1, hcall, hcap⟩ := nmvect_remove_wrapped 0
    { destructor := none, cmp := none, capacity := 2147483648, size := 1,
      array := 1 :: List.replicate 2147483647 0 } 0
    (by rw [List.length_cons, List.length_replicate])
    rfl rfl (by decide)
  exact ⟨data, v1, hcall, hcap, by decide⟩

/-- The capacity adjustment of `nmvect_insert_range` past the range of an `int`, under any
allocator that grants a block of one slot: the vector it leaves has capacity `1` and a block
of one slot. -/
theorem nmvect_modcap_wrapped_any (h : Heap) (v : nmvect) (k : Nat)
    (hcap : v.capacity = 2147483648) (hk : k = 1) (hg : h.grants 1 = true) :
    nmvect_modcap h v (i32 (v.capacity + k))
      = (0, { v with array := v.array.take 1 ++ List.replicate (1 - v.array.length) h.junk,
                     capacity := 1 }) := by
  have hi : i32 (v.capacity + k) = -2147483647 := by
    rw [hcap, hk]
    unfold i32
    norm_num
  have hu : u32 ((v.capacity : Int) + -2147483647) = 1 := by unfold u32; omega
  have hnot : ¬ (1 : Nat) < 1 := by omega
  have hne : ¬ ((-2147483647 : Int) = 0) := by omega
  simp only [nmvect_modcap, hi, hu, hnot, hne, if_false, realloc, hg, if_true]

/-- A failed range insertion past the range of an `int`: on a vector of `2 ^ 31` slots
holding `[x, y]`, with an `addvect` of one element, a granted capacity adjustment and a
refused holder, `nmvect_insert_range` returns `-1` and leaves a block of one slot: the
element `y` is lost. -/
theorem nmvect_insert_range_failed_wrapped (h : Heap) (v a : nmvect) (index : Nat)
    (x y : Ptr) (rest : List Ptr) (harr : v.array = x :: y :: rest)
    (hcap : v.capacity = 2147483648) (hsize : v.size = 2) (ha : a.size = 1)
    (hidx : index ≤ 2) (hg : h.grants 1 = true) (hh : h.header = false) :
    ∃ v1, nmvect_insert_range h v index a = some (-1, v1) ∧ v1.capacity = 1 ∧
      v1.elems = [x] ∧ v.elems = [x, y] := by
  have hnot : ¬ index > v.size := by omega
  have hmod := nmvect_modcap_wrapped_any h v a.size hcap ha hg
  refine ⟨{ v with array := v.array.take 1 ++ List.replicate (1 - v.array.length) h.junk,
                   capacity := 1 }, ?_, rfl, ?_, ?_⟩
  · simp only [nmvect_insert_range, hnot, if_false, hmod, ne_eq, not_true_eq_false,
      nmvect_alloc, hh, Bool.false_eq_true]
  · simp only [nmvect.elems, harr, hsize]
    simp
  · simp only [nmvect.elems, harr, hsize]
    simp

/-- C28, as stated, fails in two ways, both with an allocator that grants slot blocks but
refuses the header of the temporary holder.  On `[1, 2]` (capacity `2`) with `[8]` at index
`1`, `nmvect_insert_range` returns `-1` after the capacity adjustment has been made; the
capacity is `5`.  On a vector of `2 ^ 31` slots holding `[1, 2]`, with `[8]` at index `1`,
the capacity adjustment wraps and cuts the block before the call returns `-1`: the capacity
is `1` and the elements are `[1]`, the element `2` being lost. -/
theorem nmvect_insert_range_failure_not_atomic :
    (nmvect_insert_range { header := false, grants := fun _ => true, junk := 0 }
        { destructor := none, cmp := none, capacity := 2, size := 2, array := [1, 2] } 1
        { destructor := none, cmp := none, capacity := 1, size := 1, array := [8] }).map
      (fun r => (r.1, r.2.size, r.2.capacity, r.2.elems)) = some (-1, 2, 5, [1, 2]) ∧
    ∃ v1, nmvect_insert_range { header := false, grants := fun _ => true, junk := 0 }
        { destructor := none, cmp := none, capacity := 2147483648, size := 2,
          array := 1 :: 2 :: List.replicate 2147483646 0 } 1
        { destructor := none, cmp := none, capacity := 1, size := 1, array := [8] }
        = some (-1, v1) ∧
      v1.capacity = 1 ∧ v1.elems = [1] :=
  ⟨by decide,
    match nmvect_insert_range_failed_wrapped
        { header := false, grants := fun _ => true, junk := 0 }
        { destructor := none, cmp := none, capacity := 2147483648, size := 2,
          array := 1 :: 2 :: List.replicate 2147483646 0 }
        { destructor := none, cmp := none, capacity := 1, size := 1, array := [8] } 1
        1 2 (List.replicate 2147483646 0) rfl rfl rfl rfl (by decide) rfl rfl with
    | ⟨v1, h1, h2, h3, _⟩ => ⟨v1, h1, h2, h3⟩⟩

end NmLib
